import Mathlib

/-!
SMP: slot packing, GMM tables, inner-product extraction and result assembly.

A shallow embedding of `src/HElib.cpp` and of the client side of `src/SMP.cpp`,
followed by theorems about the embedded functions.

Conventions of the embedding:

* a C++ `long` is an `Int`; sizes, moduli and loop bounds that the library guarantees to
  be non-negative (`ea->size()`, `ea->getDegree()`, `getPhiM()`, `getPPowR()`) are `Nat`;
* an `NTL::ZZX` is its coefficient list, constant term first; `NTL::coeff` reads past the
  end (and at negative positions) as `0`, `NTL::deg` ignores trailing zeros;
* an `NTL::zz_pX` is a coefficient list whose entries are residues in `[0, p)`, without
  trailing zeros;
* `assert`, a throwing `.at()` and a range-checked write outside a matrix are failures:
  the function returns `none`.
-/

namespace SMP

/-! ## NTL primitives -/

/-- The type `NTL::ZZX`: the coefficients of an integer polynomial, constant term first. -/
abbrev ZZX := List Int

/-- The type `NTL::zz_pX`: coefficients are residues in `[0, p)`, constant term first. -/
abbrev zz_pX := List Int

/-- Strip the trailing zero coefficients (NTL keeps every polynomial in this form). -/
def normalize : List Int → List Int
  | [] => []
  | a :: as =>
    match normalize as with
    | [] => if a = 0 then [] else [a]
    | b :: bs => a :: b :: bs

/-- The function `NTL::deg`: the degree of a polynomial, with `deg 0 = -1`. -/
def deg (f : ZZX) : Int := ((normalize f).length : Int) - 1

/-- The function `NTL::coeff`: the coefficient of `X^i`, zero when `i` is out of range. -/
def coeff (f : ZZX) (i : Int) : Int :=
  if i < 0 then 0 else f.getD i.toNat 0

/-- The function `NTL::to_long` on an integer that fits a `long`. -/
def to_long (a : Int) : Int := a

/-- The function `NTL::PowerMod(a, e, n)` for `0 ≤ a < n` and `e ≥ 0`: `a^e mod n`. -/
def PowerMod (a : Int) (e : Nat) (n : Int) : Int := (a ^ e) % n

/-- The function `NTL::PrepMulMod(n)`: the preconditioning datum for the modulus `n`
(it only accelerates `MulMod`; it is represented by the modulus it was prepared for). -/
def PrepMulMod (n : Int) : Int := n

/-- The function `NTL::MulMod(a, b, n, ninv)` for `0 ≤ a, b < n`: `a * b mod n`. -/
def MulMod (a b n _ninv : Int) : Int := (a * b) % n

/-- The function `NTL::AddMod(a, b, n)` for `0 ≤ a, b < n`: `a + b mod n`. -/
def AddMod (a b n : Int) : Int := (a + b) % n

/-- The monomial `NTL::ZZX(j, 1)`, that is `X^j`. -/
def monomial (j : Nat) : ZZX := List.replicate j 0 ++ [1]

/-- `NTL::conv(zz_pX&, ZZX)`: reduce every coefficient into `[0, p)` and strip the
trailing zeros. -/
def conv_zz_pX (p : Nat) (f : ZZX) : zz_pX := normalize (f.map (fun a => a % (p : Int)))

/-- `NTL::conv(ZZX&, zz_pX)`: the residues in `[0, p)` read as integers. -/
def conv_ZZX (f : zz_pX) : ZZX := f

/-- Coefficientwise sum of two coefficient lists over the integers. -/
def polyAdd : List Int → List Int → List Int
  | [], b => b
  | x :: a, [] => x :: a
  | x :: a, y :: b => (x + y) :: polyAdd a b

/-- Product of two coefficient lists over the integers. -/
def polyMul : List Int → List Int → List Int
  | [], _ => []
  | x :: a, b => polyAdd (b.map (fun y => x * y)) (0 :: polyMul a b)

/-- One Horner step of the division by the monic `f = f_lo + X^d`: from the remainder `r`
(as `d` coefficients) of a polynomial `a`, the remainder of `x + X * a`. -/
def polyRemStep (p : Nat) (f_lo : List Int) (x : Int) (r : List Int) : List Int :=
  let g := x :: r
  let c := g.getLastD 0
  List.zipWith (fun u v => (u - c * v) % (p : Int)) g.dropLast f_lo

/-- The remainder, as `deg f` coefficients, of the division of `a` by the monic `f`
with coefficients mod `p`. -/
def polyRem (p : Nat) (f : List Int) : List Int → List Int
  | [] => List.replicate (f.length - 1) 0
  | x :: a => polyRemStep p f.dropLast x (polyRem p f a)

/-- The sum `a + b` of `NTL::zz_pX`. -/
def zz_pX.add (p : Nat) (a b : zz_pX) : zz_pX := conv_zz_pX p (polyAdd a b)

/-- The product `a * b` of `NTL::zz_pX`. -/
def zz_pX.mul (p : Nat) (a b : zz_pX) : zz_pX := conv_zz_pX p (polyMul a b)

/-- `NTL::rem(r, a, f)` of `NTL::zz_pX` for a monic `f`: the remainder of `a` modulo `f`. -/
def zz_pX.rem (p : Nat) (a f : zz_pX) : zz_pX := conv_zz_pX p (polyRem p f a)

/-- `NTL::MulMod(x, a, b, f)` of `NTL::zz_pX`: `a * b mod f`. -/
def zz_pX.MulMod (p : Nat) (a b f : zz_pX) : zz_pX := zz_pX.rem p (zz_pX.mul p a b) f

/-! ## The HElib context -/

/-- The part of `EncryptedArray` that the code reads: `size()` and `getDegree()`. -/
structure EncryptedArray where
  size : Nat
  degree : Nat
deriving DecidableEq, Repr

/-- The part of `PAlgebra` that the code reads: `getM()`, `getP()` and `getPhiM()`. -/
structure PAlgebra where
  M : Int
  P : Int
  PhiM : Nat
deriving DecidableEq, Repr

/-- The part of `PAlgebraMod` that the code reads: `getPPowR()`, `getFactorsOverZZ()`
and, for the CRT of the derived `PA_zz_p` object, its table `crtCoeffs`. -/
structure PAlgebraMod where
  PPowR : Nat
  factorsOverZZ : List ZZX
  crtCoeffs : List zz_pX
deriving DecidableEq, Repr

/-- The part of `FHEcontext` that the code reads. -/
structure FHEcontext where
  zMStar : PAlgebra
  alMod : PAlgebraMod
  ea : EncryptedArray
deriving DecidableEq, Repr

/-- The factors of the derived `PA_zz_p` object: the factors over `ZZ` read mod `p`. -/
def PAlgebraMod.factors (alMod : PAlgebraMod) : List zz_pX :=
  alMod.factorsOverZZ.map (conv_zz_pX alMod.PPowR)

/-- The product of all the factors but factor `i`. -/
def PAlgebraMod.cofactor (alMod : PAlgebraMod) (i : Nat) : zz_pX :=
  (alMod.factors.eraseIdx i).foldr (fun f acc => zz_pX.mul alMod.PPowR f acc)
    (conv_zz_pX alMod.PPowR [1])

/-- Modelled from the spec: `PAlgebraModDerived::CRT_decompose` of HElib, which is not in
the repository. "For each factor, reduces `poly` modulo that factor, producing the
per-slot polynomial." -/
def CRT_decompose (alMod : PAlgebraMod) (H : zz_pX) : List zz_pX :=
  alMod.factors.map (fun f => zz_pX.rem alMod.PPowR H f)

/-- Modelled from the spec: `PAlgebraModDerived::CRT_reconstruct` of HElib, which is not in
the repository. "Reconstructs the unique ring element `r` such that, for every slot `i`,
`r mod Factor_i == slots[i]`", by "the standard CRT formula using per-factor
Lagrange-style weighting": the sum over the slots `i` of
`(slots[i] * crtCoeffs[i] mod Factor_i) * (product of the other factors)`. -/
def CRT_reconstruct (alMod : PAlgebraMod) (nslots : Nat) (crt : List zz_pX) : zz_pX :=
  (List.range nslots).foldr
    (fun i H =>
      zz_pX.add alMod.PPowR
        (zz_pX.mul alMod.PPowR
          (zz_pX.MulMod alMod.PPowR (crt.getD i []) (alMod.crtCoeffs.getD i [])
            (alMod.factors.getD i []))
          (alMod.cofactor i))
        H)
    []

/-! ## `HElib.cpp`: the slot codec -/

/-- `rawEncode(NTL::zz_pX &out, slots, context)`. -/
def rawEncode_zz_pX (slots : List zz_pX) (context : FHEcontext) : zz_pX :=
  CRT_reconstruct context.alMod context.ea.size slots

/-- `rawEncode(NTL::ZZX &out, slots, context)`. -/
def rawEncode_ZZX (slots : List zz_pX) (context : FHEcontext) : ZZX :=
  let tmp := rawEncode_zz_pX slots context
  conv_ZZX tmp

/-- `rawDecode(std::vector<NTL::zz_pX> &out, NTL::zz_pX const& poly, context)`. -/
def rawDecode_zz_pX (poly : zz_pX) (context : FHEcontext) : List zz_pX :=
  CRT_decompose context.alMod poly

/-- `rawDecode(std::vector<NTL::zz_pX> &out, NTL::ZZX const& poly, context)`. -/
def rawDecode_ZZX (poly : ZZX) (context : FHEcontext) : List zz_pX :=
  let tmp := conv_zz_pX context.alMod.PPowR poly
  rawDecode_zz_pX tmp context

/-- `rawDecode(std::vector<NTL::ZZX> &out, NTL::ZZX const& poly, context)`: `tmp` is
default-constructed (the zero polynomial) and `poly` is never read. -/
def rawDecode_ZZX_ZZX (_poly : ZZX) (context : FHEcontext) : List ZZX :=
  let tmp : zz_pX := []
  let tmp2 := rawDecode_zz_pX tmp context
  tmp2.map conv_ZZX

/-! ## `HElib.cpp`: GMM tables -/

/-- The struct `GMMPrecompTable`: the powers `(-beta)^k mod p` and the `MulMod` datum. -/
structure GMMPrecompTable where
  beta_powers : List Int
  inv_p : Int
deriving DecidableEq, Repr

/-- `precompute_gmm_table(beta, p, slots)`: entry `i` is
`PowerMod(i & 1 ? p - beta : beta, i, p)`. -/
def precompute_gmm_table (beta p : Int) (slots : Nat) : GMMPrecompTable :=
  { beta_powers :=
      (List.range slots).map (fun i => PowerMod (if i % 2 = 1 then p - beta else beta) i p)
    inv_p := 0 }

/-- `is_valid_for_GMM(factor)`: no coefficient at a degree `d` with `1 ≤ d < deg factor`
is nonzero. -/
def is_valid_for_GMM (factor : ZZX) : Bool :=
  ((List.range (deg factor).toNat).drop 1).all (fun d => coeff factor d == 0)

/-- The loop of `precompute_gmm_tables` over the factors; the `assert` fails the call. -/
def precompute_gmm_tables.loop (p : Int) (l : Nat) (inv_p : Int) :
    List ZZX → Option (List GMMPrecompTable)
  | [] => some []
  | factor :: rest =>
    if is_valid_for_GMM factor then
      let beta := to_long (coeff factor 0)
      let tbl := { precompute_gmm_table beta p l with inv_p := inv_p }
      (precompute_gmm_tables.loop p l inv_p rest).map (fun tbls => tbl :: tbls)
    else none

/-- `precompute_gmm_tables(context)`: one table per factor of the context. -/
def precompute_gmm_tables (context : FHEcontext) : Option (List GMMPrecompTable) :=
  let p : Int := context.alMod.PPowR
  let l := context.ea.size
  let inv_p := PrepMulMod p
  precompute_gmm_tables.loop p l inv_p context.alMod.factorsOverZZ

/-! ## `HElib.cpp`: inner-product extraction -/

/-- One iteration of the loop of `extract_inner_product`: slot `i`, accumulator `ret`.
The `assert(coeff_loc < phim)` and the bounds check of `.at(i)` fail the call. -/
def extract_inner_product.body (poly : ZZX) (tbl : GMMPrecompTable) (d : Nat) (p : Int)
    (phim : Nat) (ret : Int) (i : Nat) : Option Int :=
  let coeff_loc : Int := ((i : Int) + 1) * (d : Int) - 1
  if coeff_loc < (phim : Int) then
    match tbl.beta_powers[i]? with
    | some w =>
      let c := to_long (coeff poly coeff_loc)
      let c := MulMod c w p tbl.inv_p
      some (AddMod ret c p)
    | none => none
  else none

/-- `extract_inner_product(poly, tbl, context)` on an `NTL::ZZX`. -/
def extract_inner_product (poly : ZZX) (tbl : GMMPrecompTable) (context : FHEcontext) :
    Option Int :=
  let d := context.ea.degree
  let l := context.ea.size
  let p : Int := context.alMod.PPowR
  let phim := context.zMStar.PhiM
  (List.range l).foldlM (extract_inner_product.body poly tbl d p phim) 0

/-- `extract_inner_products(out, poly, tables, context)` on an `NTL::ZZX`: `out` is
cleared and receives one scalar per table. -/
def extract_inner_products (poly : ZZX) (tables : List GMMPrecompTable)
    (context : FHEcontext) : Option (List Int) :=
  tables.mapM (fun tbl => extract_inner_product poly tbl context)

/-! ## `HElib.cpp`: merging ciphertexts by shifting -/

/-- The struct `CoeffExtractorAux`. -/
structure CoeffExtractorAux where
  alpha : ZZX
  merge_offsets : List ZZX
  m : Int
  t : Int
  d : Nat
deriving DecidableEq, Repr

/-- The two operations of HElib's `Ctxt` that the merge uses: `operator+=` and
`multByConstant`. -/
structure CtxtOps (Ctxt : Type) where
  add : Ctxt → Ctxt → Ctxt
  multByConstant : Ctxt → ZZX → Ctxt

/-- `init_coeff_extractor_aux(aux, context)` for a non-null `aux`; `encode` and
`buildLinPolyCoeffs` are the methods of the context's `EncryptedArray`. The result is the
`aux` the call fills in (the call then returns `true`); `none` stands for the accesses
`L[d - 1]` and `alphas[0]` falling outside their vectors. -/
def init_coeff_extractor_aux (encode : List ZZX → ZZX)
    (buildLinPolyCoeffs : List ZZX → List ZZX) (context : FHEcontext) :
    Option CoeffExtractorAux :=
  let l := context.ea.size
  let d := context.ea.degree
  if d = 0 then none
  else
    let L : List ZZX := (List.replicate d []).set (d - 1) [1]
    let alphas := buildLinPolyCoeffs L
    match alphas[0]? with
    | none => none
    | some alpha0 =>
      let packed_alpha := List.replicate l alpha0
      let merge_offsets : List ZZX :=
        (List.range d).map (fun j =>
          if 1 ≤ j then encode (List.replicate l (monomial j)) else [])
      some
        { alpha := encode packed_alpha
          merge_offsets := merge_offsets
          m := context.zMStar.M
          t := context.zMStar.P
          d := context.ea.degree }

/-- `merge_ctxts_by_shifting(ctxt, cnt, aux)`: `ctxt` points to `cnt` ciphertexts. The
`assert(ctxt && cnt > 0)` and the bounds check of `merge_offsets.at(j)` fail the call. -/
def merge_ctxts_by_shifting {Ctxt : Type} (ops : CtxtOps Ctxt) (ctxt : List Ctxt)
    (cnt : Nat) (aux : CoeffExtractorAux) : Option Ctxt :=
  if cnt = 0 then none
  else
    match ctxt[0]? with
    | none => none
    | some ans =>
      (List.range' 1 (cnt - 1)).foldlM
        (fun ans j =>
          match ctxt[j]?, aux.merge_offsets[j]? with
          | some tmp, some off => some (ops.add ans (ops.multByConstant tmp off))
          | _, _ => none)
        ans

/-! ## `SMP.cpp`: block counts and result assembly -/

/-- `round_div(a, b)`: `(a + b - 1) / b` with the truncating division of C++. -/
def round_div (a b : Int) : Int := Int.tdiv (a + b - 1) b

/-- The struct `internal::BlockId`. -/
structure BlockId where
  x : Nat
  y : Nat
deriving DecidableEq, Repr

/-- The encryption loops of `play_client`: the blocks of `A` (`rowsA × colsA`) that are
partitioned, packed and encrypted, in the order the ciphertexts are sent. -/
def play_client.uploading (rowsA colsA : Int) (ea : EncryptedArray) : List BlockId :=
  let l : Int := ea.size
  let d : Int := ea.degree
  let MAX_X1 := round_div rowsA l
  let MAX_Y1 := round_div colsA d
  (List.range MAX_X1.toNat).flatMap (fun x =>
    (List.range MAX_Y1.toNat).map (fun k => { x := x, y := k }))

/-- The counter `clt_ben.ctx_sent` of `play_client`: `MAX_X1 * MAX_Y1`. -/
def play_client.ctx_sent (rowsA colsA : Int) (ea : EncryptedArray) : Int :=
  let l : Int := ea.size
  let d : Int := ea.degree
  let MAX_X1 := round_div rowsA l
  let MAX_Y1 := round_div colsA d
  MAX_X1 * MAX_Y1

/-- The type `Matrix` (an `NTL::Mat<long>`): its dimensions and entries. The field `puts`
is not part of the C++ object: it logs every `put(i, j, a)` performed on the matrix,
latest first. -/
structure Matrix where
  NumRows : Nat
  NumCols : Nat
  elts : Nat → Nat → Int
  puts : List (Nat × Nat × Int)

/-- `mat.put(i, j, a)`: the range-checked write of entry `(i, j)`. -/
def Matrix.put (mat : Matrix) (i j : Int) (a : Int) : Option Matrix :=
  if 0 ≤ i ∧ i < (mat.NumRows : Int) ∧ 0 ≤ j ∧ j < (mat.NumCols : Int) then
    some
      { mat with
        elts := fun r c => if r = i.toNat ∧ c = j.toNat then a else mat.elts r c
        puts := (i.toNat, j.toNat, a) :: mat.puts }
  else none

/-- `Matrix computed; computed.SetDims(n, m); zero(computed)`: the `n × m` zero matrix. -/
def Matrix.zero (n m : Nat) : Matrix :=
  { NumRows := n, NumCols := m, elts := fun _ _ => 0, puts := [] }

/-- The loop of `fill_compute` over the slots `ll`; leaving the list of slots early is
the `break`. In the vector branch `col'` is the inner `long col` that shadows the
parameter. -/
def fill_compute.loop (is_vec : Bool) (row_start col_start col : Int)
    (inner_prod : List Int) : List Nat → Matrix → Option Matrix
  | [], mat => some mat
  | ll :: rest, mat =>
    let computed := inner_prod.getD ll 0
    if !is_vec then
      let row := row_start + (ll : Int)
      if row < (mat.NumRows : Int) then
        (mat.put row col computed).bind
          (fill_compute.loop is_vec row_start col_start col inner_prod rest)
      else some mat
    else
      let col' := col_start + (ll : Int)
      if col' < (mat.NumCols : Int) then
        (mat.put 0 col' computed).bind
          (fill_compute.loop is_vec row_start col_start col inner_prod rest)
      else some mat

/-- `fill_compute(mat, row_blk, col, inner_prod, ea)`; the `assert` on the size of
`inner_prod` fails the call. -/
def fill_compute (mat : Matrix) (row_blk col : Int) (inner_prod : List Int)
    (ea : EncryptedArray) : Option Matrix :=
  let l : Int := ea.size
  if inner_prod.length ≠ ea.size then none
  else
    let is_vec : Bool := mat.NumRows == 1
    let row_start : Int := if is_vec then 0 else row_blk * l
    let col_start : Int := if is_vec then row_blk * l else col
    fill_compute.loop is_vec row_start col_start col inner_prod (List.range ea.size) mat

/-- The receive loop of `play_client`: `slots` is, for each received ciphertext in turn,
the vector that `extract_inner_products` returned for it; `colsB` is `B.NumCols()`. -/
def play_client.receive (colsB : Int) (ea : EncryptedArray) :
    List (List Int) → Int → Matrix → Option Matrix
  | [], _, computed => some computed
  | slots :: rest, ctx_idx, computed =>
    let row_blk := Int.tdiv ctx_idx colsB
    let column := Int.tmod ctx_idx colsB
    (fill_compute computed row_blk column slots ea).bind
      (play_client.receive colsB ea rest (ctx_idx + 1))

/-- The result assembly of `play_client`: `computed` is set to the zero matrix of
`rowsA × colsB` and filled from the received vectors. -/
def play_client.computed (rowsA colsB : Nat) (ea : EncryptedArray)
    (received : List (List Int)) : Option Matrix :=
  play_client.receive colsB ea received 0 (Matrix.zero rowsA colsB)

/-- The number of `put` calls logged on `mat` that wrote entry `(r, c)`. -/
def Matrix.putCount (mat : Matrix) (r c : Nat) : Nat :=
  mat.puts.countP (fun w => decide (w.1 = r ∧ w.2.1 = c))

/-- The largest value of a 64-bit `long`. -/
def LONG_MAX : Int := 9223372036854775807

/-! ## The polynomial denoted by a coefficient list -/

/-- The polynomial over `Z/p` that a coefficient list denotes (constant term first). It is
not part of the program: it states what the list arithmetic above computes. -/
noncomputable def toPoly (p : Nat) : List Int → Polynomial (ZMod p)
  | [] => 0
  | x :: a => Polynomial.C (x : ZMod p) + Polynomial.X * toPoly p a

/-! ## Block counts -/

theorem round_div_eq_ediv (n b : Int) (hn : 0 ≤ n) (hb : 1 ≤ b) :
    round_div n b = (n + b - 1) / b := by
  unfold round_div
  exact Int.tdiv_eq_ediv (by omega) (by omega)

theorem round_div_mul_ge (n b : Int) (hn : 0 ≤ n) (hb : 1 ≤ b) :
    n ≤ round_div n b * b := by
  rw [round_div_eq_ediv n b hn hb]
  have h1 := Int.emod_add_ediv (n + b - 1) b
  have h2 := Int.emod_lt_of_pos (n + b - 1) (show 0 < b by omega)
  nlinarith

theorem round_div_le_of_le_mul (n b k : Int) (hn : 0 ≤ n) (hb : 1 ≤ b) (h : n ≤ k * b) :
    round_div n b ≤ k := by
  rw [round_div_eq_ediv n b hn hb]
  have hb0 : 0 < b := by omega
  have h3 : (n + b - 1) / b < k + 1 := by
    rw [Int.ediv_lt_iff_lt_mul hb0]
    nlinarith
  omega

theorem round_div_nonneg (n b : Int) (hn : 0 ≤ n) (hb : 1 ≤ b) : 0 ≤ round_div n b := by
  rw [round_div_eq_ediv n b hn hb]
  exact Int.ediv_nonneg (by omega) (by omega)

theorem round_div_eq_ceil (n b : Int) (hn : 0 ≤ n) (hb : 1 ≤ b) :
    round_div n b = ⌈(n : ℚ) / (b : ℚ)⌉ := by
  symm
  rw [Int.ceil_eq_iff]
  have hbq : (0 : ℚ) < (b : ℚ) := by exact_mod_cast (show 0 < b by omega)
  constructor
  · rw [lt_div_iff₀ hbq]
    by_contra hcon
    push_neg at hcon
    have h1 : n ≤ (round_div n b - 1) * b := by exact_mod_cast hcon
    have h2 := round_div_le_of_le_mul n b (round_div n b - 1) hn hb h1
    omega
  · rw [div_le_iff₀ hbq]
    exact_mod_cast round_div_mul_ge n b hn hb

theorem flatMap_range_length {α : Type} (f : Nat → Nat → α) (X Y : Nat) :
    ((List.range X).flatMap (fun x => (List.range Y).map (f x))).length = X * Y := by
  simp [List.length_flatMap, Function.comp_def]

theorem flatMap_range_lookup {α : Type} (f : Nat → Nat → α) (X Y x k : Nat) (hx : x < X)
    (hk : k < Y) :
    ((List.range X).flatMap (fun x => (List.range Y).map (f x)))[x * Y + k]? = some (f x k) := by
  induction X with
  | zero => omega
  | succ X ih =>
    rw [List.range_succ, List.flatMap_append, List.flatMap_singleton]
    by_cases hlt : x < X
    · have hidx : x * Y + k < X * Y := by
        have : (x + 1) * Y ≤ X * Y := Nat.mul_le_mul_right Y hlt
        rw [Nat.add_mul, Nat.one_mul] at this
        omega
      rw [List.getElem?_append_left (by rw [flatMap_range_length]; exact hidx)]
      exact ih hlt
    · have hxX : x = X := by omega
      subst hxX
      rw [List.getElem?_append_right (by rw [flatMap_range_length]; omega),
        flatMap_range_length]
      simp [hk]

theorem uploading_eq (rowsA colsA : Int) (ea : EncryptedArray) :
    play_client.uploading rowsA colsA ea
      = (List.range (round_div rowsA ea.size).toNat).flatMap (fun x =>
          (List.range (round_div colsA ea.degree).toNat).map
            (fun k => ({ x := x, y := k } : BlockId))) := rfl

/-- C8. `round_div(n, b)` is `ceil(n / b)`, the least `k` with `k * b ≥ n`, for `n ≥ 0`
and `b ≥ 1` (with `n + b - 1` a `long`). For an `R × C` matrix the blocks that the client
packs, encrypts and sends are exactly the blocks `(x, k)` with `x < ceil(R/l)` and
`k < ceil(C/d)`, one ciphertext each, in row-major order (block `(x, k)` is upload number
`x * ceil(C/d) + k`), so `ceil(R/l) * ceil(C/d)` ciphertexts in all; every entry `(r, c)`
of the matrix lies in the uploaded block `(r / l, c / d)`. For a `10 × 10` matrix with
`l = 8`, `d = 4` these are the `2` row-blocks times `3` column-blocks. -/
theorem round_div_ceil_tiling (n b : Int) (hn : 0 ≤ n) (hb : 1 ≤ b)
    (_hmax : n + b - 1 ≤ LONG_MAX) :
    round_div n b = ⌈(n : ℚ) / (b : ℚ)⌉
    ∧ n ≤ round_div n b * b
    ∧ (∀ k : Int, n ≤ k * b → round_div n b ≤ k)
    ∧ (∀ (R C : Nat) (ea : EncryptedArray), 1 ≤ ea.size → 1 ≤ ea.degree →
        (R : Int) + (ea.size : Int) - 1 ≤ LONG_MAX →
        (C : Int) + (ea.degree : Int) - 1 ≤ LONG_MAX →
        play_client.uploading R C ea
            = (List.range ⌈(R : ℚ) / (ea.size : ℚ)⌉.toNat).flatMap (fun x =>
                (List.range ⌈(C : ℚ) / (ea.degree : ℚ)⌉.toNat).map
                  (fun k => ({ x := x, y := k } : BlockId)))
        ∧ ((play_client.uploading R C ea).length : Int)
            = ⌈(R : ℚ) / (ea.size : ℚ)⌉ * ⌈(C : ℚ) / (ea.degree : ℚ)⌉
        ∧ (∀ x k : Nat, x < ⌈(R : ℚ) / (ea.size : ℚ)⌉.toNat →
            k < ⌈(C : ℚ) / (ea.degree : ℚ)⌉.toNat →
            (play_client.uploading R C ea)[x * ⌈(C : ℚ) / (ea.degree : ℚ)⌉.toNat + k]?
              = some { x := x, y := k })
        ∧ (∀ blk : BlockId, blk ∈ play_client.uploading R C ea
            ↔ blk.x < ⌈(R : ℚ) / (ea.size : ℚ)⌉.toNat
              ∧ blk.y < ⌈(C : ℚ) / (ea.degree : ℚ)⌉.toNat)
        ∧ (play_client.uploading R C ea).Nodup
        ∧ (∀ r c : Nat, r < R → c < C →
            ({ x := r / ea.size, y := c / ea.degree } : BlockId)
              ∈ play_client.uploading R C ea)
        ∧ play_client.ctx_sent R C ea
            = ⌈(R : ℚ) / (ea.size : ℚ)⌉ * ⌈(C : ℚ) / (ea.degree : ℚ)⌉)
    ∧ round_div 10 8 = 2 ∧ round_div 10 4 = 3
    ∧ play_client.uploading 10 10 { size := 8, degree := 4 }
        = [{ x := 0, y := 0 }, { x := 0, y := 1 }, { x := 0, y := 2 },
           { x := 1, y := 0 }, { x := 1, y := 1 }, { x := 1, y := 2 }] := by
  refine ⟨round_div_eq_ceil n b hn hb, round_div_mul_ge n b hn hb,
    fun k hk => round_div_le_of_le_mul n b k hn hb hk, ?_, by decide, by decide, by decide⟩
  intro R C ea hl hd _ _
  have hl' : (1 : Int) ≤ (ea.size : Int) := by exact_mod_cast hl
  have hd' : (1 : Int) ≤ (ea.degree : Int) := by exact_mod_cast hd
  have hR : (0 : Int) ≤ (R : Int) := Int.natCast_nonneg R
  have hC : (0 : Int) ≤ (C : Int) := Int.natCast_nonneg C
  have e1 := round_div_eq_ceil R ea.size hR hl'
  have e2 := round_div_eq_ceil C ea.degree hC hd'
  have n1 := round_div_nonneg R ea.size hR hl'
  have n2 := round_div_nonneg C ea.degree hC hd'
  have g1 := round_div_mul_ge R ea.size hR hl'
  have g2 := round_div_mul_ge C ea.degree hC hd'
  simp only [Int.cast_natCast] at e1 e2
  rw [e1] at n1 g1
  rw [e2] at n2 g2
  have hup := uploading_eq R C ea
  rw [e1, e2] at hup
  have hX : R ≤ ⌈(R : ℚ) / (ea.size : ℚ)⌉.toNat * ea.size := by
    have : ((⌈(R : ℚ) / (ea.size : ℚ)⌉.toNat : Nat) : Int) = ⌈(R : ℚ) / (ea.size : ℚ)⌉ :=
      Int.toNat_of_nonneg n1
    rw [← this] at g1
    exact_mod_cast g1
  have hY : C ≤ ⌈(C : ℚ) / (ea.degree : ℚ)⌉.toNat * ea.degree := by
    have : ((⌈(C : ℚ) / (ea.degree : ℚ)⌉.toNat : Nat) : Int) = ⌈(C : ℚ) / (ea.degree : ℚ)⌉ :=
      Int.toNat_of_nonneg n2
    rw [← this] at g2
    exact_mod_cast g2
  have hmem : ∀ blk : BlockId, blk ∈ play_client.uploading R C ea
      ↔ blk.x < ⌈(R : ℚ) / (ea.size : ℚ)⌉.toNat
        ∧ blk.y < ⌈(C : ℚ) / (ea.degree : ℚ)⌉.toNat := by
    intro blk
    rw [hup]
    simp only [List.mem_flatMap, List.mem_map, List.mem_range]
    constructor
    · rintro ⟨x, hx, k, hk, rfl⟩
      exact ⟨hx, hk⟩
    · rintro ⟨hx, hk⟩
      exact ⟨blk.x, hx, blk.y, hk, rfl⟩
  refine ⟨hup, ?_, ?_, hmem, ?_, ?_, ?_⟩
  · rw [hup, flatMap_range_length]
    push_cast
    rw [Int.toNat_of_nonneg n1, Int.toNat_of_nonneg n2]
  · intro x k hx hk
    rw [hup]
    exact flatMap_range_lookup (fun x k => ({ x := x, y := k } : BlockId)) _ _ x k hx hk
  · rw [hup, List.nodup_flatMap]
    constructor
    · intro x _
      apply List.Nodup.map _ (List.nodup_range _)
      intro a b hab
      exact congrArg BlockId.y hab
    · apply List.Nodup.pairwise_of_forall_ne (List.nodup_range _)
      intro a _ b _ hab
      intro blk h1 h2
      rw [List.mem_map] at h1 h2
      obtain ⟨k1, _, rfl⟩ := h1
      obtain ⟨k2, _, h⟩ := h2
      exact hab (congrArg BlockId.x h).symm
  · intro r c hr hc
    rw [hmem]
    constructor
    · apply Nat.div_lt_of_lt_mul
      rw [Nat.mul_comm]
      omega
    · apply Nat.div_lt_of_lt_mul
      rw [Nat.mul_comm]
      omega
  · unfold play_client.ctx_sent
    simp only
    rw [e1, e2]

theorem round_div_ceil_tiling_witness :
    round_div 10 4 = ⌈((10 : Int) : ℚ) / ((4 : Int) : ℚ)⌉
    ∧ (10 : Int) ≤ round_div 10 4 * 4 :=
  ⟨(round_div_ceil_tiling 10 4 (by decide) (by decide) (by decide)).1,
   (round_div_ceil_tiling 10 4 (by decide) (by decide) (by decide)).2.1⟩

/-! ## GMM tables -/

/-- C3. For `p ≥ 2` and `0 < beta < p`, `precompute_gmm_table(beta, p, l)` has `l` entries
and entry `i` is the residue in `[0, p)` of `(-beta)^i`, computed as `PowerMod(beta, i, p)`
for even `i` and `PowerMod(p - beta, i, p)` for odd `i`. -/
theorem precompute_gmm_table_powers (beta p : Int) (l : Nat) (hp : 2 ≤ p)
    (hb0 : 0 < beta) (hb : beta < p) :
    (precompute_gmm_table beta p l).beta_powers.length = l
    ∧ ∀ i, i < l → ∃ e,
        (precompute_gmm_table beta p l).beta_powers[i]? = some e
        ∧ 0 ≤ e ∧ e < p
        ∧ e = (-beta) ^ i % p
        ∧ e = (if i % 2 = 0 then PowerMod beta i p else PowerMod (p - beta) i p)
        ∧ 0 ≤ (if i % 2 = 0 then beta else p - beta)
        ∧ (if i % 2 = 0 then beta else p - beta) < p := by
  constructor
  · simp [precompute_gmm_table]
  · intro i hi
    have hp0 : p ≠ 0 := by omega
    have hp1 : 0 < p := by omega
    rcases Nat.mod_two_eq_zero_or_one i with h0 | h1
    · refine ⟨PowerMod beta i p, ?_, ?_, ?_, ?_, ?_, ?_, ?_⟩
      · simp [precompute_gmm_table, List.getElem?_range hi, hi, h0]
      · exact Int.emod_nonneg _ hp0
      · exact Int.emod_lt_of_pos _ hp1
      · unfold PowerMod
        have hev : Even i := Nat.even_iff.mpr h0
        rw [hev.neg_pow]
      · simp [h0]
      · simp only [h0, if_true]; omega
      · simp only [h0, if_true]; omega
    · refine ⟨PowerMod (p - beta) i p, ?_, ?_, ?_, ?_, ?_, ?_, ?_⟩
      · simp [precompute_gmm_table, List.getElem?_range hi, hi, h1]
      · exact Int.emod_nonneg _ hp0
      · exact Int.emod_lt_of_pos _ hp1
      · unfold PowerMod
        have hmod : (p - beta) ≡ (-beta) [ZMOD p] := by
          have : p - beta = -beta + p := by ring
          rw [this]
          exact Int.add_modEq_right
        exact (hmod.pow i)
      · simp [h1]
      · simp only [h1]; simp; omega
      · simp only [h1]; simp; omega

theorem precompute_gmm_table_powers_witness :
    (precompute_gmm_table 3 5 4).beta_powers.length = 4 :=
  (precompute_gmm_table_powers 3 5 4 (by decide) (by decide) (by decide)).1

theorem mem_drop_one_range (n d : Nat) : d ∈ (List.range n).drop 1 ↔ 1 ≤ d ∧ d < n := by
  cases n with
  | zero => simp
  | succ m =>
    rw [List.range_succ_eq_map]
    simp only [List.drop_succ_cons, List.drop_zero, List.mem_map, List.mem_range]
    constructor
    · rintro ⟨a, ha, rfl⟩
      omega
    · rintro ⟨h1, h2⟩
      exact ⟨d - 1, by omega, by omega⟩

theorem is_valid_for_GMM_iff (f : ZZX) :
    is_valid_for_GMM f = true ↔ ∀ j : Int, 0 < j → j < deg f → coeff f j = 0 := by
  unfold is_valid_for_GMM
  rw [List.all_eq_true]
  constructor
  · intro h j hj0 hjd
    have hm : j.toNat ∈ (List.range (deg f).toNat).drop 1 := by
      rw [mem_drop_one_range]
      omega
    have := h j.toNat hm
    rw [Int.toNat_of_nonneg (by omega)] at this
    simpa using this
  · intro h d hd
    rw [mem_drop_one_range] at hd
    have := h (d : Int) (by omega) (by omega)
    simpa using this

theorem precompute_gmm_tables_loop_none (p : Int) (l : Nat) (inv_p : Int) (f : ZZX)
    (hf : is_valid_for_GMM f = false) (fs : List ZZX) (hmem : f ∈ fs) :
    precompute_gmm_tables.loop p l inv_p fs = none := by
  induction fs with
  | nil => simp at hmem
  | cons g rest ih =>
    unfold precompute_gmm_tables.loop
    by_cases hg : is_valid_for_GMM g = true
    · rw [if_pos hg]
      rcases List.mem_cons.mp hmem with h | h
      · rw [h, hg] at hf
        exact absurd hf (by simp)
      · simp [ih h]
    · rw [if_neg hg]

/-- C4. `is_valid_for_GMM(f)` holds exactly when every coefficient of `f` at a degree `j`
with `0 < j < deg f` is zero; `precompute_gmm_tables` fails, returning no table, when a
factor of the context has a nonzero coefficient at such a degree; the factor
`X^3 + 2X + 1` is rejected. -/
theorem is_valid_for_GMM_rejection (f : ZZX) :
    (is_valid_for_GMM f = true ↔ ∀ j : Int, 0 < j → j < deg f → coeff f j = 0)
    ∧ (∀ context : FHEcontext, f ∈ context.alMod.factorsOverZZ →
        (∃ j : Int, 0 < j ∧ j < deg f ∧ coeff f j ≠ 0) →
        precompute_gmm_tables context = none)
    ∧ is_valid_for_GMM [1, 2, 0, 1] = false
    ∧ (∀ context : FHEcontext, [1, 2, 0, 1] ∈ context.alMod.factorsOverZZ →
        precompute_gmm_tables context = none) := by
  refine ⟨is_valid_for_GMM_iff f, ?_, by decide, ?_⟩
  · intro context hmem hex
    have hf : is_valid_for_GMM f = false := by
      rw [← Bool.not_eq_true, is_valid_for_GMM_iff]
      push_neg
      obtain ⟨j, h1, h2, h3⟩ := hex
      exact ⟨j, h1, h2, h3⟩
    exact precompute_gmm_tables_loop_none _ _ _ f hf _ hmem
  · intro context hmem
    exact precompute_gmm_tables_loop_none _ _ _ [1, 2, 0, 1] (by decide) _ hmem

/-! ## Inner-product extraction -/

theorem extract_inner_product_body_eq (poly : ZZX) (tbl : GMMPrecompTable) (d : Nat) (p : Int)
    (phim : Nat) (ret : Int) (i : Nat) (hloc : (i + 1) * d ≤ phim)
    (hlen : i < tbl.beta_powers.length) :
    extract_inner_product.body poly tbl d p phim ret i
      = some ((ret + (coeff poly (((i : Int) + 1) * (d : Int) - 1)
          * tbl.beta_powers.getD i 0) % p) % p) := by
  unfold extract_inner_product.body
  have h1 : ((i : Int) + 1) * (d : Int) - 1 < (phim : Int) := by
    have : (((i + 1) * d : Nat) : Int) ≤ (phim : Int) := by exact_mod_cast hloc
    push_cast at this
    omega
  simp only [h1, if_true]
  rw [List.getElem?_eq_getElem hlen]
  simp only [MulMod, AddMod, to_long]
  rw [List.getD_eq_getElem _ _ hlen]

theorem extract_inner_product_fold (poly : ZZX) (tbl : GMMPrecompTable) (d : Nat) (p : Int)
    (phim : Nat) (n : Nat) (hloc : n * d ≤ phim) (hlen : n ≤ tbl.beta_powers.length) :
    (List.range n).foldlM (extract_inner_product.body poly tbl d p phim) 0
      = some ((∑ i ∈ Finset.range n,
          coeff poly (((i : Int) + 1) * (d : Int) - 1) * tbl.beta_powers.getD i 0) % p) := by
  induction n with
  | zero => simp
  | succ k ih =>
    have hk : k * d ≤ phim := le_trans (Nat.mul_le_mul_right d (Nat.le_succ k)) hloc
    rw [List.range_succ, List.foldlM_append, ih hk (by omega)]
    simp only [Option.some_bind, Option.bind_eq_bind, List.foldlM_cons, List.foldlM_nil]
    rw [extract_inner_product_body_eq poly tbl d p phim _ k hloc (by omega)]
    simp only [Option.some_bind, Option.bind_eq_bind, Option.pure_def]
    rw [Finset.sum_range_succ, Int.emod_add_emod, Int.add_emod_emod]

theorem extract_inner_product_eq (poly : ZZX) (tbl : GMMPrecompTable) (context : FHEcontext)
    (hphim : context.ea.size * context.ea.degree ≤ context.zMStar.PhiM)
    (hlen : context.ea.size ≤ tbl.beta_powers.length) :
    extract_inner_product poly tbl context
      = some ((∑ i ∈ Finset.range context.ea.size,
          coeff poly (((i : Int) + 1) * (context.ea.degree : Int) - 1)
            * tbl.beta_powers.getD i 0) % (context.alMod.PPowR : Int)) := by
  unfold extract_inner_product
  exact extract_inner_product_fold poly tbl _ _ _ _ hphim hlen

theorem extract_inner_products_eq (poly : ZZX) (context : FHEcontext)
    (hphim : context.ea.size * context.ea.degree ≤ context.zMStar.PhiM)
    (tables : List GMMPrecompTable)
    (hlen : ∀ tbl ∈ tables, context.ea.size ≤ tbl.beta_powers.length) :
    extract_inner_products poly tables context
      = some (tables.map (fun tbl =>
          (∑ i ∈ Finset.range context.ea.size,
            coeff poly (((i : Int) + 1) * (context.ea.degree : Int) - 1)
              * tbl.beta_powers.getD i 0) % (context.alMod.PPowR : Int))) := by
  unfold extract_inner_products
  induction tables with
  | nil => rfl
  | cons t ts ih =>
    rw [List.mapM_cons, extract_inner_product_eq poly t context hphim
      (hlen t (List.mem_cons_self t ts)), ih (fun tbl h => hlen tbl (List.mem_cons_of_mem t h))]
    simp

theorem precompute_gmm_tables_loop_eq (p : Int) (l : Nat) (inv_p : Int) (fs : List ZZX)
    (hvalid : ∀ f ∈ fs, is_valid_for_GMM f = true) :
    precompute_gmm_tables.loop p l inv_p fs
      = some (fs.map (fun f =>
          { beta_powers := (precompute_gmm_table (coeff f 0) p l).beta_powers
            inv_p := inv_p })) := by
  induction fs with
  | nil => simp [precompute_gmm_tables.loop]
  | cons g rest ih =>
    unfold precompute_gmm_tables.loop
    rw [if_pos (hvalid g (List.mem_cons_self g rest)),
      ih (fun f h => hvalid f (List.mem_cons_of_mem g h))]
    simp [to_long]

/-- C1, amended. For a context with `m = l * d`, one factor per slot and every
factor of the restricted form, `extract_inner_products` returns, for every ring element
`product`, a vector of exactly `l` scalars in `[0, p)`; its entry `k` is the sum over the
slots `i` in `0..l-1` of (the coefficient of `product` at position `(i+1)*d - 1`) times
entry `i` of the table of factor `k`, reduced mod `p`. -/
theorem extract_inner_products_weighted_sum (product : ZZX) (context : FHEcontext)
    (hp : 2 ≤ context.alMod.PPowR)
    (hphim : context.zMStar.PhiM = context.ea.size * context.ea.degree)
    (hfac : context.alMod.factorsOverZZ.length = context.ea.size)
    (hvalid : ∀ f ∈ context.alMod.factorsOverZZ, is_valid_for_GMM f = true) :
    ∃ tables out,
      precompute_gmm_tables context = some tables
      ∧ extract_inner_products product tables context = some out
      ∧ tables.length = context.ea.size
      ∧ out.length = context.ea.size
      ∧ ∀ k, k < context.ea.size → ∃ tbl s,
          tables[k]? = some tbl ∧ out[k]? = some s
          ∧ 0 ≤ s ∧ s < (context.alMod.PPowR : Int)
          ∧ s = (∑ i ∈ Finset.range context.ea.size,
                  coeff product (((i : Int) + 1) * (context.ea.degree : Int) - 1)
                    * tbl.beta_powers.getD i 0) % (context.alMod.PPowR : Int) := by
  have hloop := precompute_gmm_tables_loop_eq (context.alMod.PPowR : Int) context.ea.size
    (PrepMulMod context.alMod.PPowR) context.alMod.factorsOverZZ hvalid
  have hlen : ∀ tbl ∈ context.alMod.factorsOverZZ.map (fun f =>
      ({ beta_powers := (precompute_gmm_table (coeff f 0) (context.alMod.PPowR : Int)
            context.ea.size).beta_powers
         inv_p := PrepMulMod context.alMod.PPowR } : GMMPrecompTable)),
      context.ea.size ≤ tbl.beta_powers.length := by
    intro tbl htbl
    rw [List.mem_map] at htbl
    obtain ⟨f, _, rfl⟩ := htbl
    simp [precompute_gmm_table]
  refine ⟨_, _, hloop, extract_inner_products_eq product context (le_of_eq hphim.symm) _ hlen,
    by simp [hfac], by simp [hfac], ?_⟩
  intro k hk
  have hk' : k < context.alMod.factorsOverZZ.length := by omega
  have hp0 : (0 : Int) < (context.alMod.PPowR : Int) := by
    have : 0 < context.alMod.PPowR := by omega
    exact_mod_cast this
  refine ⟨{ beta_powers := (precompute_gmm_table (coeff (context.alMod.factorsOverZZ[k]) 0)
      (context.alMod.PPowR : Int) context.ea.size).beta_powers
            inv_p := PrepMulMod context.alMod.PPowR }, _, ?_, ?_,
    Int.emod_nonneg _ (ne_of_gt hp0), Int.emod_lt_of_pos _ hp0, rfl⟩
  · rw [List.getElem?_map, List.getElem?_eq_getElem hk']
    rfl
  · rw [List.getElem?_map, List.getElem?_map, List.getElem?_eq_getElem hk']
    rfl

theorem extract_inner_products_weighted_sum_witness :
    ∃ tables out,
      precompute_gmm_tables
        { zMStar := { M := 8, P := 5, PhiM := 4 }
          alMod := { PPowR := 5, factorsOverZZ := [[3, 0, 1], [2, 0, 1]], crtCoeffs := [[4], [1]] }
          ea := { size := 2, degree := 2 } } = some tables
      ∧ extract_inner_products [1, 1, 2, 3] tables
        { zMStar := { M := 8, P := 5, PhiM := 4 }
          alMod := { PPowR := 5, factorsOverZZ := [[3, 0, 1], [2, 0, 1]], crtCoeffs := [[4], [1]] }
          ea := { size := 2, degree := 2 } } = some out
      ∧ tables.length = 2 ∧ out.length = 2 := by
  obtain ⟨tables, out, h1, h2, h3, h4, _⟩ :=
    extract_inner_products_weighted_sum [1, 1, 2, 3]
      { zMStar := { M := 8, P := 5, PhiM := 4 }
        alMod := { PPowR := 5, factorsOverZZ := [[3, 0, 1], [2, 0, 1]], crtCoeffs := [[4], [1]] }
        ea := { size := 2, degree := 2 } }
      (by decide) (by decide) (by decide) (by decide)
  exact ⟨tables, out, h1, h2, h3, h4⟩

/-- C1, counterexample. In the context `p = 5`, `l = 2`, `d = 1` with the factors `X + 2`
and `X + 3`, the element `1 + X` gives the vector `[4, 3]`: entry `0` is not the coefficient
at position `(0+1)*d - 1 = 0` times entry `0` of a table (which is `1`), reduced mod `p`. -/
theorem extract_inner_products_entry_counterexample :
    ∃ tables out,
      precompute_gmm_tables
        { zMStar := { M := 4, P := 5, PhiM := 2 }
          alMod := { PPowR := 5, factorsOverZZ := [[2, 1], [3, 1]], crtCoeffs := [[1], [4]] }
          ea := { size := 2, degree := 1 } } = some tables
      ∧ extract_inner_products [1, 1] tables
        { zMStar := { M := 4, P := 5, PhiM := 2 }
          alMod := { PPowR := 5, factorsOverZZ := [[2, 1], [3, 1]], crtCoeffs := [[1], [4]] }
          ea := { size := 2, degree := 1 } } = some out
      ∧ out = [4, 3]
      ∧ ∀ tbl ∈ tables,
          out.getD 0 0 ≠ (coeff [1, 1] ((0 + 1) * 1 - 1) * tbl.beta_powers.getD 0 0) % 5 := by
  refine ⟨[{ beta_powers := [1, 3], inv_p := 5 }, { beta_powers := [1, 2], inv_p := 5 }],
    [4, 3], by decide, by decide, rfl, by decide⟩

/-! ## Merging ciphertexts by shifting -/

theorem foldlM_option_eq_foldl {α β : Type} (f : β → α → Option β) (g : β → α → β)
    (L : List α) (h : ∀ b, ∀ a ∈ L, f b a = some (g b a)) (b0 : β) :
    L.foldlM f b0 = some (L.foldl g b0) := by
  induction L generalizing b0 with
  | nil => rfl
  | cons x xs ih =>
    rw [List.foldlM_cons, h b0 x (List.mem_cons_self x xs)]
    simp only [Option.some_bind, Option.bind_eq_bind, List.foldl_cons]
    exact ih (fun b a ha => h b a (List.mem_cons_of_mem x ha)) _

theorem foldlM_option_eq_none {α β : Type} (f : β → α → Option β) (L : List α) (a : α)
    (ha : a ∈ L) (h : ∀ b, f b a = none) (b0 : β) :
    L.foldlM f b0 = none := by
  induction L generalizing b0 with
  | nil => simp at ha
  | cons x xs ih =>
    rw [List.foldlM_cons]
    rcases List.mem_cons.mp ha with hx | hx
    · rw [← hx, h b0]
      rfl
    · cases hfx : f b0 x with
      | none => rfl
      | some b1 =>
        simp only [Option.some_bind, Option.bind_eq_bind]
        exact ih hx b1

theorem init_coeff_extractor_aux_offsets (encode : List ZZX → ZZX)
    (buildLinPolyCoeffs : List ZZX → List ZZX) (context : FHEcontext) (aux : CoeffExtractorAux)
    (haux : init_coeff_extractor_aux encode buildLinPolyCoeffs context = some aux) :
    1 ≤ context.ea.degree
    ∧ aux.merge_offsets = (List.range context.ea.degree).map (fun j =>
        if 1 ≤ j then encode (List.replicate context.ea.size (monomial j)) else []) := by
  unfold init_coeff_extractor_aux at haux
  by_cases hd : context.ea.degree = 0
  · simp [hd] at haux
  · simp only [hd, if_false] at haux
    cases hal : (buildLinPolyCoeffs ((List.replicate context.ea.degree ([] : ZZX)).set
        (context.ea.degree - 1) [1]))[0]? with
    | none => simp [hal] at haux
    | some alpha0 =>
      simp only [hal, Option.some.injEq] at haux
      subst haux
      exact ⟨by omega, rfl⟩

theorem merge_offsets_lookup (encode : List ZZX → ZZX) (l d j : Nat) :
    ((List.range d).map (fun j =>
        if 1 ≤ j then encode (List.replicate l (monomial j)) else ([] : ZZX)))[j]?
      = if j < d then
          some (if 1 ≤ j then encode (List.replicate l (monomial j)) else []) else none := by
  by_cases h : j < d
  · simp [h, List.getElem?_range h]
  · simp [h]
    omega

/-- C7, amended. With the `CoeffExtractorAux` built by
`init_coeff_extractor_aux` for a context of slot degree `d` and an array of `cnt`
ciphertexts: for `1 ≤ cnt ≤ d`, `merge_ctxts_by_shifting` succeeds and returns `ctxt[0]`
to which, for `j = 1..cnt-1` in turn, `ctxt[j]` scaled by the constant `merge_offsets[j]`
(the monomial `X^j` packed into every slot) is added; for `cnt = 1` the result is `ctxt[0]`
itself; the call fails exactly when `cnt = 0` or `cnt > d`. -/
theorem merge_ctxts_by_shifting_spec {Ctxt : Type} (ops : CtxtOps Ctxt)
    (encode : List ZZX → ZZX) (buildLinPolyCoeffs : List ZZX → List ZZX)
    (context : FHEcontext) (aux : CoeffExtractorAux) (ctxt : List Ctxt) (cnt : Nat)
    (haux : init_coeff_extractor_aux encode buildLinPolyCoeffs context = some aux)
    (hlen : ctxt.length = cnt) :
    (1 ≤ cnt → cnt ≤ context.ea.degree → ∃ c0, ctxt[0]? = some c0
      ∧ merge_ctxts_by_shifting ops ctxt cnt aux
          = some ((List.range' 1 (cnt - 1)).foldl
              (fun ans j => ops.add ans (ops.multByConstant (ctxt.getD j c0)
                (encode (List.replicate context.ea.size (monomial j))))) c0))
    ∧ (cnt = 1 → ∃ c0, ctxt = [c0] ∧ merge_ctxts_by_shifting ops ctxt cnt aux = some c0)
    ∧ (merge_ctxts_by_shifting ops ctxt cnt aux = none
        ↔ cnt = 0 ∨ context.ea.degree < cnt) := by
  obtain ⟨hd, hoff⟩ := init_coeff_extractor_aux_offsets encode buildLinPolyCoeffs context aux haux
  have hmain : 1 ≤ cnt → cnt ≤ context.ea.degree → ∃ c0, ctxt[0]? = some c0
      ∧ merge_ctxts_by_shifting ops ctxt cnt aux
          = some ((List.range' 1 (cnt - 1)).foldl
              (fun ans j => ops.add ans (ops.multByConstant (ctxt.getD j c0)
                (encode (List.replicate context.ea.size (monomial j))))) c0) := by
    intro h1 h2
    have h0 : 0 < ctxt.length := by omega
    refine ⟨ctxt[0], List.getElem?_eq_getElem h0, ?_⟩
    unfold merge_ctxts_by_shifting
    rw [if_neg (by omega), List.getElem?_eq_getElem h0]
    simp only
    apply foldlM_option_eq_foldl
    intro b j hj
    rw [List.mem_range'_1] at hj
    have hjl : j < ctxt.length := by omega
    rw [List.getElem?_eq_getElem hjl, hoff, merge_offsets_lookup, if_pos (by omega),
      if_pos (by omega)]
    simp only
    rw [List.getD_eq_getElem _ _ hjl]
  refine ⟨hmain, ?_, ?_⟩
  · intro h1
    subst h1
    obtain ⟨c0, hc0, hm⟩ := hmain (le_refl 1) hd
    refine ⟨c0, ?_, ?_⟩
    · match ctxt, hlen, hc0 with
      | [x], _, hx => simpa using hx
    · rw [hm]
      rfl
  · constructor
    · intro hnone
      by_contra hcon
      push_neg at hcon
      obtain ⟨c0, _, hm⟩ := hmain (by omega) hcon.2
      rw [hm] at hnone
      exact absurd hnone (by simp)
    · rintro (h0 | hgt)
      · unfold merge_ctxts_by_shifting
        rw [if_pos h0]
      · have hc : 0 < ctxt.length := by omega
        unfold merge_ctxts_by_shifting
        rw [if_neg (by omega), List.getElem?_eq_getElem hc]
        simp only
        apply foldlM_option_eq_none _ _ context.ea.degree
        · rw [List.mem_range'_1]
          omega
        · intro b
          have hjl : context.ea.degree < ctxt.length := by omega
          rw [List.getElem?_eq_getElem hjl, hoff, merge_offsets_lookup, if_neg (by omega)]

theorem merge_ctxts_by_shifting_spec_witness :
    ∃ c0, ([10, 20] : List Int)[0]? = some c0
      ∧ merge_ctxts_by_shifting
          ({ add := fun a b => a + b, multByConstant := fun c k => c * (k.length : Int) } :
            CtxtOps Int)
          [10, 20] 2
          { alpha := [], merge_offsets := [[], [0, 1]], m := 8, t := 5, d := 2 }
        = some ((List.range' 1 (2 - 1)).foldl
            (fun ans j => ans + ([10, 20] : List Int).getD j c0
              * (((fun v : List ZZX => v.headD []) (List.replicate 2 (monomial j))).length : Int))
            c0) :=
  (merge_ctxts_by_shifting_spec
    ({ add := fun a b => a + b, multByConstant := fun c k => c * (k.length : Int) } :
      CtxtOps Int)
    (fun v => v.headD []) (fun L => L)
    { zMStar := { M := 8, P := 5, PhiM := 4 }
      alMod := { PPowR := 5, factorsOverZZ := [[3, 0, 1], [2, 0, 1]], crtCoeffs := [[4], [1]] }
      ea := { size := 2, degree := 2 } }
    { alpha := [], merge_offsets := [[], [0, 1]], m := 8, t := 5, d := 2 }
    [10, 20] 2 (by decide) (by decide)).1 (by decide) (by decide)

/-- C7, counterexample. For a context of slot degree `d = 1` the table `merge_offsets` has
the single entry of index `0`, and merging `cnt = 2` ciphertexts fails at
`merge_offsets.at(1)` although `cnt ≥ 1`. -/
theorem merge_ctxts_by_shifting_counterexample :
    init_coeff_extractor_aux (fun v => v.headD []) (fun L => L)
        { zMStar := { M := 4, P := 5, PhiM := 2 }
          alMod := { PPowR := 5, factorsOverZZ := [[2, 1], [3, 1]], crtCoeffs := [[1], [4]] }
          ea := { size := 2, degree := 1 } }
      = some { alpha := [1], merge_offsets := [[]], m := 4, t := 5, d := 1 }
    ∧ merge_ctxts_by_shifting
        ({ add := fun a b => a + b, multByConstant := fun c k => c * (k.length : Int) } :
          CtxtOps Int)
        [10, 20] 2
        { alpha := [1], merge_offsets := [[]], m := 4, t := 5, d := 1 } = none := by
  constructor
  · decide
  · decide

/-! ## Result assembly -/

theorem Matrix.put_natCast (mat : Matrix) (i j : Nat) (a : Int) (hi : i < mat.NumRows)
    (hj : j < mat.NumCols) :
    mat.put (i : Int) (j : Int) a
      = some { mat with
          elts := fun r c => if r = i ∧ c = j then a else mat.elts r c
          puts := (i, j, a) :: mat.puts } := by
  unfold Matrix.put
  have h : 0 ≤ (i : Int) ∧ (i : Int) < (mat.NumRows : Int) ∧ 0 ≤ (j : Int)
      ∧ (j : Int) < (mat.NumCols : Int) := by
    refine ⟨by omega, by exact_mod_cast hi, by omega, by exact_mod_cast hj⟩
  rw [if_pos h]
  simp

theorem fill_compute_loop_rows (rs col : Nat) (cs : Int) (ip : List Int) :
    ∀ (n s : Nat) (mat : Matrix), col < mat.NumCols →
      ∃ mat', fill_compute.loop false (rs : Int) cs (col : Int) ip (List.range' s n) mat
          = some mat'
        ∧ mat'.NumRows = mat.NumRows ∧ mat'.NumCols = mat.NumCols
        ∧ mat'.puts = ((List.range' s (min n (mat.NumRows - (rs + s)))).map
            (fun ll => (rs + ll, col, ip.getD ll 0))).reverse ++ mat.puts
        ∧ (∀ r c, mat'.elts r c
            = if c = col ∧ rs + s ≤ r ∧ r < rs + s + min n (mat.NumRows - (rs + s))
              then ip.getD (r - rs) 0 else mat.elts r c)
        ∧ (∀ r c, mat'.putCount r c = mat.putCount r c
            + if c = col ∧ rs + s ≤ r ∧ r < rs + s + min n (mat.NumRows - (rs + s))
              then 1 else 0) := by
  intro n
  induction n with
  | zero =>
    intro s mat _
    refine ⟨mat, by simp [fill_compute.loop], rfl, rfl, by simp, ?_, ?_⟩
    · intro r c
      rw [if_neg (by omega)]
    · intro r c
      rw [if_neg (by omega)]
      rfl
  | succ n ih =>
    intro s mat hcol
    rw [List.range'_succ]
    unfold fill_compute.loop
    simp only [Bool.not_false, if_true]
    by_cases h : rs + s < mat.NumRows
    · have hlt : (rs : Int) + (s : Int) < (mat.NumRows : Int) := by
        exact_mod_cast h
      rw [if_pos hlt]
      have hput := Matrix.put_natCast mat (rs + s) col (ip.getD s 0) (by omega) (by omega)
      push_cast at hput
      rw [hput]
      simp only [Option.some_bind, Option.bind_eq_bind]
      obtain ⟨mat', hrun, hR', hC', hputs, helts, hcnt⟩ :=
        ih (s + 1) { mat with
          elts := fun r c => if r = rs + s ∧ c = col then ip.getD s 0 else mat.elts r c
          puts := (rs + s, col, ip.getD s 0) :: mat.puts } hcol
      simp only at hR' hC' hputs helts hcnt
      have hmin : min (n + 1) (mat.NumRows - (rs + s))
          = min n (mat.NumRows - (rs + (s + 1))) + 1 := by omega
      refine ⟨mat', hrun, hR', hC', ?_, ?_, ?_⟩
      · rw [hputs, hmin, List.range'_succ]
        simp
      · intro r c
        rw [helts r c, hmin]
        by_cases h1 : c = col ∧ rs + (s + 1) ≤ r
            ∧ r < rs + (s + 1) + min n (mat.NumRows - (rs + (s + 1)))
        · rw [if_pos h1, if_pos (by omega)]
        · rw [if_neg h1]
          by_cases h2 : r = rs + s ∧ c = col
          · rw [if_pos h2, if_pos (by omega)]
            congr 1
            omega
          · rw [if_neg h2, if_neg (by omega)]
      · intro r c
        rw [hcnt r c, hmin]
        unfold Matrix.putCount
        simp only [List.countP_cons]
        by_cases h1 : c = col ∧ rs + (s + 1) ≤ r
            ∧ r < rs + (s + 1) + min n (mat.NumRows - (rs + (s + 1)))
        · have h2 : ¬ (rs + s = r ∧ col = c) := by omega
          have h3 : c = col ∧ rs + s ≤ r
              ∧ r < rs + s + (min n (mat.NumRows - (rs + (s + 1))) + 1) := by omega
          rw [if_pos h1, if_pos h3]
          simp [h2]
        · by_cases h2 : rs + s = r ∧ col = c
          · have h3 : c = col ∧ rs + s ≤ r
                ∧ r < rs + s + (min n (mat.NumRows - (rs + (s + 1))) + 1) := by omega
            rw [if_neg h1, if_pos h3]
            simp [h2]
          · have h3 : ¬ (c = col ∧ rs + s ≤ r
                ∧ r < rs + s + (min n (mat.NumRows - (rs + (s + 1))) + 1)) := by omega
            rw [if_neg h1, if_neg h3]
            simp [h2]
    · have hge : ¬ ((rs : Int) + (s : Int) < (mat.NumRows : Int)) := by
        push_neg; exact_mod_cast (not_lt.mp h)
      rw [if_neg hge]
      have hmin : min (n + 1) (mat.NumRows - (rs + s)) = 0 := by omega
      refine ⟨mat, rfl, rfl, rfl, by simp [hmin], ?_, ?_⟩
      · intro r c
        rw [hmin, if_neg (by omega)]
      · intro r c
        rw [hmin, if_neg (by omega)]
        rfl

theorem fill_compute_loop_cols (cs : Nat) (rs col : Int) (ip : List Int) :
    ∀ (n s : Nat) (mat : Matrix), 0 < mat.NumRows →
      ∃ mat', fill_compute.loop true rs (cs : Int) col ip (List.range' s n) mat
          = some mat'
        ∧ mat'.NumRows = mat.NumRows ∧ mat'.NumCols = mat.NumCols
        ∧ mat'.puts = ((List.range' s (min n (mat.NumCols - (cs + s)))).map
            (fun ll => (0, cs + ll, ip.getD ll 0))).reverse ++ mat.puts
        ∧ (∀ r c, mat'.elts r c
            = if r = 0 ∧ cs + s ≤ c ∧ c < cs + s + min n (mat.NumCols - (cs + s))
              then ip.getD (c - cs) 0 else mat.elts r c)
        ∧ (∀ r c, mat'.putCount r c = mat.putCount r c
            + if r = 0 ∧ cs + s ≤ c ∧ c < cs + s + min n (mat.NumCols - (cs + s))
              then 1 else 0) := by
  intro n
  induction n with
  | zero =>
    intro s mat _
    refine ⟨mat, by simp [fill_compute.loop], rfl, rfl, by simp, ?_, ?_⟩
    · intro r c
      rw [if_neg (by omega)]
    · intro r c
      rw [if_neg (by omega)]
      rfl
  | succ n ih =>
    intro s mat hrow
    rw [List.range'_succ]
    unfold fill_compute.loop
    simp only [Bool.not_true, Bool.false_eq_true, if_false]
    by_cases h : cs + s < mat.NumCols
    · have hlt : (cs : Int) + (s : Int) < (mat.NumCols : Int) := by
        exact_mod_cast h
      rw [if_pos hlt]
      have hput := Matrix.put_natCast mat 0 (cs + s) (ip.getD s 0) hrow (by omega)
      push_cast at hput
      rw [hput]
      simp only [Option.some_bind, Option.bind_eq_bind]
      obtain ⟨mat', hrun, hR', hC', hputs, helts, hcnt⟩ :=
        ih (s + 1) { mat with
          elts := fun r c => if r = 0 ∧ c = cs + s then ip.getD s 0 else mat.elts r c
          puts := (0, cs + s, ip.getD s 0) :: mat.puts } hrow
      simp only at hR' hC' hputs helts hcnt
      have hmin : min (n + 1) (mat.NumCols - (cs + s))
          = min n (mat.NumCols - (cs + (s + 1))) + 1 := by omega
      refine ⟨mat', hrun, hR', hC', ?_, ?_, ?_⟩
      · rw [hputs, hmin, List.range'_succ]
        simp
      · intro r c
        rw [helts r c, hmin]
        by_cases h1 : r = 0 ∧ cs + (s + 1) ≤ c
            ∧ c < cs + (s + 1) + min n (mat.NumCols - (cs + (s + 1)))
        · rw [if_pos h1, if_pos (by omega)]
        · rw [if_neg h1]
          by_cases h2 : r = 0 ∧ c = cs + s
          · rw [if_pos h2, if_pos (by omega)]
            congr 1
            omega
          · rw [if_neg h2, if_neg (by omega)]
      · intro r c
        rw [hcnt r c, hmin]
        unfold Matrix.putCount
        simp only [List.countP_cons]
        by_cases h1 : r = 0 ∧ cs + (s + 1) ≤ c
            ∧ c < cs + (s + 1) + min n (mat.NumCols - (cs + (s + 1)))
        · have h2 : ¬ (0 = r ∧ cs + s = c) := by omega
          have h3 : r = 0 ∧ cs + s ≤ c
              ∧ c < cs + s + (min n (mat.NumCols - (cs + (s + 1))) + 1) := by omega
          rw [if_pos h1, if_pos h3]
          simp [h2]
        · by_cases h2 : 0 = r ∧ cs + s = c
          · have h3 : r = 0 ∧ cs + s ≤ c
                ∧ c < cs + s + (min n (mat.NumCols - (cs + (s + 1))) + 1) := by omega
            rw [if_neg h1, if_pos h3]
            simp [h2]
          · have h3 : ¬ (r = 0 ∧ cs + s ≤ c
                ∧ c < cs + s + (min n (mat.NumCols - (cs + (s + 1))) + 1)) := by omega
            rw [if_neg h1, if_neg h3]
            simp [h2]
    · have hge : ¬ ((cs : Int) + (s : Int) < (mat.NumCols : Int)) := by
        push_neg; exact_mod_cast (not_lt.mp h)
      rw [if_neg hge]
      have hmin : min (n + 1) (mat.NumCols - (cs + s)) = 0 := by omega
      refine ⟨mat, rfl, rfl, rfl, by simp [hmin], ?_, ?_⟩
      · intro r c
        rw [hmin, if_neg (by omega)]
      · intro r c
        rw [hmin, if_neg (by omega)]
        rfl

theorem fill_compute_rows (mat : Matrix) (row_blk col : Nat) (inner_prod : List Int)
    (ea : EncryptedArray) (hlen : inner_prod.length = ea.size) (hcol : col < mat.NumCols)
    (hR : mat.NumRows ≠ 1) :
    ∃ mat', fill_compute mat row_blk col inner_prod ea = some mat'
      ∧ mat'.NumRows = mat.NumRows ∧ mat'.NumCols = mat.NumCols
      ∧ mat'.puts = ((List.range (min ea.size (mat.NumRows - row_blk * ea.size))).map
          (fun ll => (row_blk * ea.size + ll, col, inner_prod.getD ll 0))).reverse ++ mat.puts
      ∧ (∀ r c, mat'.elts r c
          = if c = col ∧ row_blk * ea.size ≤ r
              ∧ r < row_blk * ea.size + min ea.size (mat.NumRows - row_blk * ea.size)
            then inner_prod.getD (r - row_blk * ea.size) 0 else mat.elts r c)
      ∧ (∀ r c, mat'.putCount r c = mat.putCount r c
          + if c = col ∧ row_blk * ea.size ≤ r
              ∧ r < row_blk * ea.size + min ea.size (mat.NumRows - row_blk * ea.size)
            then 1 else 0) := by
  unfold fill_compute
  have hv : (mat.NumRows == 1) = false := by simpa using hR
  simp only [hlen, ne_eq, not_true_eq_false, if_false, hv, Bool.false_eq_true]
  have h := fill_compute_loop_rows (row_blk * ea.size) col (col : Int) inner_prod ea.size 0 mat hcol
  simp only [List.range_eq_range']
  push_cast at h
  simpa using h

theorem fill_compute_cols (mat : Matrix) (row_blk : Nat) (col : Int) (inner_prod : List Int)
    (ea : EncryptedArray) (hlen : inner_prod.length = ea.size) (hR : mat.NumRows = 1) :
    ∃ mat', fill_compute mat row_blk col inner_prod ea = some mat'
      ∧ mat'.NumRows = mat.NumRows ∧ mat'.NumCols = mat.NumCols
      ∧ mat'.puts = ((List.range (min ea.size (mat.NumCols - row_blk * ea.size))).map
          (fun ll => (0, row_blk * ea.size + ll, inner_prod.getD ll 0))).reverse ++ mat.puts
      ∧ (∀ r c, mat'.elts r c
          = if r = 0 ∧ row_blk * ea.size ≤ c
              ∧ c < row_blk * ea.size + min ea.size (mat.NumCols - row_blk * ea.size)
            then inner_prod.getD (c - row_blk * ea.size) 0 else mat.elts r c)
      ∧ (∀ r c, mat'.putCount r c = mat.putCount r c
          + if r = 0 ∧ row_blk * ea.size ≤ c
              ∧ c < row_blk * ea.size + min ea.size (mat.NumCols - row_blk * ea.size)
            then 1 else 0) := by
  unfold fill_compute
  have hv : (mat.NumRows == 1) = true := by simpa using hR
  simp only [hlen, ne_eq, not_true_eq_false, if_false, hv, if_true]
  have h := fill_compute_loop_cols (row_blk * ea.size) 0 col inner_prod ea.size 0 mat (by omega)
  simp only [List.range_eq_range']
  push_cast at h
  simpa using h

/-- C5. `fill_compute` on an `R × C` matrix, a vector of `l` scalars, `row_blk ≥ 0` and
`0 ≤ col < C` succeeds, keeps the dimensions and performs exactly the writes
`put(row_blk*l + ll, col, scalars[ll])` for `ll < min(l, max(0, R - row_blk*l))` when
`R ≠ 1`, and `put(0, row_blk*l + ll, scalars[ll])` for `ll < min(l, max(0, C - row_blk*l))`
when `R = 1`; every target lies inside the matrix and every other entry is unchanged. On a
`5 × 1` matrix with `l = 8` and `row_blk = 0` exactly `5` writes are performed. -/
theorem fill_compute_frame (mat : Matrix) (row_blk col : Nat) (inner_prod : List Int)
    (ea : EncryptedArray) (hlen : inner_prod.length = ea.size) (hcol : col < mat.NumCols) :
    ∃ mat', fill_compute mat row_blk col inner_prod ea = some mat'
      ∧ mat'.NumRows = mat.NumRows ∧ mat'.NumCols = mat.NumCols
      ∧ (mat.NumRows ≠ 1 →
          mat'.puts = ((List.range (min ea.size (mat.NumRows - row_blk * ea.size))).map
              (fun ll => (row_blk * ea.size + ll, col, inner_prod.getD ll 0))).reverse
              ++ mat.puts
          ∧ (∀ ll, ll < min ea.size (mat.NumRows - row_blk * ea.size) →
              row_blk * ea.size + ll < mat.NumRows ∧ col < mat.NumCols)
          ∧ (∀ r c, mat'.elts r c
              = if c = col ∧ row_blk * ea.size ≤ r
                  ∧ r < row_blk * ea.size + min ea.size (mat.NumRows - row_blk * ea.size)
                then inner_prod.getD (r - row_blk * ea.size) 0 else mat.elts r c))
      ∧ (mat.NumRows = 1 →
          mat'.puts = ((List.range (min ea.size (mat.NumCols - row_blk * ea.size))).map
              (fun ll => (0, row_blk * ea.size + ll, inner_prod.getD ll 0))).reverse
              ++ mat.puts
          ∧ (∀ ll, ll < min ea.size (mat.NumCols - row_blk * ea.size) →
              0 < mat.NumRows ∧ row_blk * ea.size + ll < mat.NumCols)
          ∧ (∀ r c, mat'.elts r c
              = if r = 0 ∧ row_blk * ea.size ≤ c
                  ∧ c < row_blk * ea.size + min ea.size (mat.NumCols - row_blk * ea.size)
                then inner_prod.getD (c - row_blk * ea.size) 0 else mat.elts r c))
      ∧ (mat.NumRows = 5 → mat.NumCols = 1 → ea.size = 8 → row_blk = 0 →
          mat'.puts.length = mat.puts.length + 5) := by
  by_cases hR : mat.NumRows = 1
  · obtain ⟨mat', hrun, hR', hC', hputs, helts, _⟩ :=
      fill_compute_cols mat row_blk col inner_prod ea hlen hR
    refine ⟨mat', hrun, hR', hC', fun h => absurd hR h, fun _ => ⟨hputs, ?_, helts⟩, ?_⟩
    · intro ll hll
      omega
    · intro h5
      omega
  · obtain ⟨mat', hrun, hR', hC', hputs, helts, _⟩ :=
      fill_compute_rows mat row_blk col inner_prod ea hlen hcol hR
    refine ⟨mat', hrun, hR', hC', fun _ => ⟨hputs, ?_, helts⟩, fun h => absurd h hR, ?_⟩
    · intro ll hll
      omega
    · intro h5 _ h8 h0
      rw [hputs, h5, h8, h0]
      simp
      omega

theorem fill_compute_frame_witness :
    ∃ mat', fill_compute (Matrix.zero 5 1) (0 : Nat) (0 : Nat) [1, 2, 3, 4, 5, 6, 7, 8]
        { size := 8, degree := 4 } = some mat'
      ∧ mat'.puts.length = 5 := by
  obtain ⟨mat', hrun, _, _, _, _, h5⟩ :=
    fill_compute_frame (Matrix.zero 5 1) 0 0 [1, 2, 3, 4, 5, 6, 7, 8]
      { size := 8, degree := 4 } (by decide) (by decide)
  exact ⟨mat', hrun, by simpa [Matrix.zero] using h5 rfl rfl rfl rfl⟩

theorem block_index_iff (l C r c t : Nat) (hl : 0 < l) (hc : c < C) :
    (c = t % C ∧ (t / C) * l ≤ r ∧ r < (t / C) * l + l) ↔ (r / l) * C + c = t := by
  have hC : 0 < C := by omega
  constructor
  · rintro ⟨h1, h2, h3⟩
    have hdiv : r / l = t / C := by
      apply Nat.div_eq_of_lt_le
      · exact h2
      · rw [Nat.add_mul, Nat.one_mul]
        exact h3
    rw [hdiv, h1]
    exact Nat.div_add_mod' t C
  · intro h
    subst h
    have hmod : (r / l * C + c) % C = c := by
      rw [Nat.add_comm, Nat.add_mul_mod_self_right, Nat.mod_eq_of_lt hc]
    have hdiv : (r / l * C + c) / C = r / l := by
      rw [Nat.add_comm, Nat.add_mul_div_right _ _ hC, Nat.div_eq_of_lt hc, Nat.zero_add]
    rw [hmod, hdiv]
    exact ⟨rfl, Nat.div_mul_le_self r l, Nat.lt_div_mul_add hl⟩

theorem getD_map_range (S : List (List Int)) :
    S = (List.range' 0 S.length).map (fun i => S.getD i []) := by
  apply List.ext_getElem
  · simp
  · intro i h1 h2
    simp [List.getElem?_eq_getElem h1]

theorem play_client_receive_entries (ea : EncryptedArray) (Sf : Nat → List Int)
    (hl : 0 < ea.size) :
    ∀ (k t : Nat) (M : Matrix), M.NumRows ≠ 1 → 0 < M.NumCols →
      (∀ i, t ≤ i → i < t + k → (Sf i).length = ea.size) →
      ∃ M', play_client.receive (M.NumCols : Int) ea ((List.range' t k).map Sf) (t : Int) M
          = some M'
        ∧ M'.NumRows = M.NumRows ∧ M'.NumCols = M.NumCols
        ∧ ∀ r c, r < M.NumRows → c < M.NumCols →
            (M'.elts r c
              = if t ≤ (r / ea.size) * M.NumCols + c ∧ (r / ea.size) * M.NumCols + c < t + k
                then (Sf ((r / ea.size) * M.NumCols + c)).getD (r % ea.size) 0
                else M.elts r c)
            ∧ (M'.putCount r c = M.putCount r c
              + if t ≤ (r / ea.size) * M.NumCols + c ∧ (r / ea.size) * M.NumCols + c < t + k
                then 1 else 0) := by
  intro k
  induction k with
  | zero =>
    intro t M _ _ _
    refine ⟨M, by simp [play_client.receive], rfl, rfl, ?_⟩
    intro r c _ _
    rw [if_neg (by omega), if_neg (by omega)]
    exact ⟨rfl, rfl⟩
  | succ k ih =>
    intro t M hR hC hS
    rw [List.range'_succ, List.map_cons]
    unfold play_client.receive
    have hdiv : Int.tdiv (t : Int) (M.NumCols : Int) = ((t / M.NumCols : Nat) : Int) := by
      rw [Int.tdiv_eq_ediv (by omega) (by omega)]
      norm_cast
    have hmod : Int.tmod (t : Int) (M.NumCols : Int) = ((t % M.NumCols : Nat) : Int) := by
      rw [Int.tmod_eq_emod (by omega) (by omega)]
      norm_cast
    simp only [hdiv, hmod]
    obtain ⟨M1, hrun1, hR1, hC1, _, helts1, hcnt1⟩ :=
      fill_compute_rows M (t / M.NumCols) (t % M.NumCols) (Sf t) ea
        (hS t (le_refl t) (by omega)) (Nat.mod_lt t hC) hR
    rw [hrun1]
    simp only [Option.some_bind, Option.bind_eq_bind]
    obtain ⟨M', hrun, hR', hC', hent⟩ :=
      ih (t + 1) M1 (by rw [hR1]; exact hR) (by rw [hC1]; exact hC)
        (fun i h1 h2 => hS i (by omega) (by omega))
    rw [hC1] at hrun
    push_cast at hrun
    refine ⟨M', hrun, hR'.trans hR1, hC'.trans hC1, ?_⟩
    intro r c hr hc
    obtain ⟨he, hn⟩ := hent r c (by rw [hR1]; exact hr) (by rw [hC1]; exact hc)
    rw [hC1] at he hn
    have hkey := block_index_iff ea.size M.NumCols r c t hl hc
    have hrem : r - (r / ea.size) * ea.size = r % ea.size := by
      have := Nat.div_add_mod' r ea.size
      omega
    have hlow := Nat.div_mul_le_self r ea.size
    by_cases hidx : (r / ea.size) * M.NumCols + c = t
    · have hb := hkey.mpr hidx
      have hd : t / M.NumCols = r / ea.size := by
        rw [← hidx, Nat.add_comm, Nat.add_mul_div_right _ _ hC, Nat.div_eq_of_lt hc,
          Nat.zero_add]
      have hcond : c = t % M.NumCols ∧ t / M.NumCols * ea.size ≤ r
          ∧ r < t / M.NumCols * ea.size + min ea.size (M.NumRows - t / M.NumCols * ea.size) := by
        obtain ⟨hb1, hb2, hb3⟩ := hb
        refine ⟨hb1, hb2, ?_⟩
        omega
      constructor
      · rw [he, if_neg (by omega), helts1 r c, if_pos hcond, if_pos (by omega), hidx, hd, hrem]
      · rw [hn, if_neg (by omega), hcnt1 r c, if_pos hcond, if_pos (by omega)]
    · have hcond : ¬ (c = t % M.NumCols ∧ t / M.NumCols * ea.size ≤ r
          ∧ r < t / M.NumCols * ea.size + min ea.size (M.NumRows - t / M.NumCols * ea.size)) := by
        intro hcon
        apply hidx
        apply hkey.mp
        obtain ⟨hb1, hb2, hb3⟩ := hcon
        refine ⟨hb1, hb2, ?_⟩
        omega
      constructor
      · rw [he, helts1 r c, if_neg hcond]
        by_cases h2 : t + 1 ≤ (r / ea.size) * M.NumCols + c
            ∧ (r / ea.size) * M.NumCols + c < t + 1 + k
        · rw [if_pos h2, if_pos (by omega)]
        · rw [if_neg h2, if_neg (by omega)]
      · rw [hn, hcnt1 r c, if_neg hcond]
        by_cases h2 : t + 1 ≤ (r / ea.size) * M.NumCols + c
            ∧ (r / ea.size) * M.NumCols + c < t + 1 + k
        · rw [if_pos h2, if_pos (by omega)]
        · rw [if_neg h2, if_neg (by omega)]

/-- C6. For an output matrix with `R ≥ 2` rows and `C ≥ 1` columns, `l ≥ 1`, and
`n = ceil(R/l) * C` received vectors `S_0, ..., S_{n-1}` of length `l`, the receive loop
of the client (the zero matrix, then `fill_compute` for `idx = 0..n-1` with
`row_blk = idx / C` and `col = idx % C`) succeeds and yields a matrix whose entry `(r, c)`,
for `r < R` and `c < C`, is `S_{(r / l) * C + c}[r % l]`; each such entry is written by
exactly one `put`. -/
theorem play_client_computed_entries (R C : Nat) (ea : EncryptedArray) (S : List (List Int))
    (hR : 2 ≤ R) (hC : 1 ≤ C) (hl : 1 ≤ ea.size)
    (hn : (S.length : Int) = ⌈(R : ℚ) / (ea.size : ℚ)⌉ * (C : Int))
    (hS : ∀ s ∈ S, s.length = ea.size) :
    ∃ M, play_client.computed R C ea S = some M
      ∧ M.NumRows = R ∧ M.NumCols = C
      ∧ ∀ r c, r < R → c < C →
          M.elts r c = (S.getD ((r / ea.size) * C + c) []).getD (r % ea.size) 0
          ∧ M.putCount r c = 1 := by
  have hlen : ∀ i, 0 ≤ i → i < 0 + S.length → (S.getD i []).length = ea.size := by
    intro i _ hi
    have hi' : i < S.length := by omega
    rw [List.getD_eq_getElem _ _ hi']
    exact hS _ (List.getElem_mem hi')
  obtain ⟨M, hrun, hMR, hMC, hent⟩ :=
    play_client_receive_entries ea (fun i => S.getD i []) (by omega) S.length 0
      (Matrix.zero R C) (by simp only [Matrix.zero]; omega) (by simp only [Matrix.zero]; omega)
      hlen
  rw [← getD_map_range S] at hrun
  refine ⟨M, hrun, hMR, hMC, ?_⟩
  intro r c hr hc
  obtain ⟨he, hcnt⟩ := hent r c hr hc
  simp only [Matrix.zero] at he hcnt
  have hceil := round_div_eq_ceil R ea.size (by omega) (by exact_mod_cast hl)
  have hge := round_div_mul_ge R ea.size (by omega) (by exact_mod_cast hl)
  have hnn := round_div_nonneg R ea.size (by omega) (by exact_mod_cast hl)
  simp only [Int.cast_natCast] at hceil
  rw [← hceil] at hn
  obtain ⟨T, hT⟩ := Int.eq_ofNat_of_zero_le hnn
  rw [hT] at hn hge
  have hn' : S.length = T * C := by exact_mod_cast hn
  have hge' : R ≤ T * ea.size := by exact_mod_cast hge
  have hq : r / ea.size < T := by
    apply Nat.div_lt_of_lt_mul
    rw [Nat.mul_comm]
    omega
  have hidx : (r / ea.size) * C + c < S.length := by
    rw [hn']
    have : (r / ea.size + 1) * C ≤ T * C := Nat.mul_le_mul_right C hq
    rw [Nat.add_mul, Nat.one_mul] at this
    omega
  constructor
  · rw [he, if_pos ⟨Nat.zero_le _, by omega⟩]
  · rw [hcnt, if_pos ⟨Nat.zero_le _, by omega⟩]
    rfl

theorem play_client_computed_entries_witness :
    ∃ M, play_client.computed 3 2 { size := 2, degree := 1 } [[1, 2], [3, 4], [5, 6], [7, 8]]
        = some M
      ∧ M.NumRows = 3 ∧ M.NumCols = 2 := by
  obtain ⟨M, h1, h2, h3, _⟩ :=
    play_client_computed_entries 3 2 { size := 2, degree := 1 } [[1, 2], [3, 4], [5, 6], [7, 8]]
      (by decide) (by decide) (by decide)
      (by
        have h : ⌈((3 : Nat) : ℚ) / (((2 : Nat)) : ℚ)⌉ = 2 := by
          rw [Int.ceil_eq_iff]
          constructor <;> norm_num
        simp only [h]
        decide)
      (by decide)
  exact ⟨M, h1, h2, h3⟩

/-! ## Coefficient lists and polynomials over `Z/p` -/

open Polynomial in
theorem toPoly_cons (p : Nat) (x : Int) (a : List Int) :
    toPoly p (x :: a) = C (x : ZMod p) + X * toPoly p a := rfl

open Polynomial in
theorem toPoly_cons_zero (p : Nat) (a : List Int) :
    toPoly p (0 :: a) = X * toPoly p a := by
  simp [toPoly]

theorem toPoly_polyAdd (p : Nat) (a b : List Int) :
    toPoly p (polyAdd a b) = toPoly p a + toPoly p b := by
  induction a generalizing b with
  | nil => simp [polyAdd, toPoly]
  | cons x a ih =>
    cases b with
    | nil => simp [polyAdd, toPoly]
    | cons y b =>
      simp only [polyAdd, toPoly, ih b]
      push_cast
      simp only [map_add]
      ring

open Polynomial in
theorem toPoly_map_mul (p : Nat) (x : Int) (b : List Int) :
    toPoly p (b.map (fun y => x * y)) = C (x : ZMod p) * toPoly p b := by
  induction b with
  | nil => simp [toPoly]
  | cons y b ih =>
    simp only [List.map_cons, toPoly, ih]
    push_cast
    simp only [map_mul]
    ring

theorem toPoly_polyMul (p : Nat) (a b : List Int) :
    toPoly p (polyMul a b) = toPoly p a * toPoly p b := by
  induction a with
  | nil => simp [polyMul, toPoly]
  | cons x a ih =>
    rw [polyMul, toPoly_polyAdd, toPoly_map_mul, toPoly_cons_zero, ih, toPoly_cons]
    ring

theorem toPoly_map_emod (p : Nat) (a : List Int) :
    toPoly p (a.map (fun x => x % (p : Int))) = toPoly p a := by
  induction a with
  | nil => rfl
  | cons x a ih =>
    simp only [List.map_cons, toPoly, ih, ZMod.intCast_mod]

theorem toPoly_normalize (p : Nat) (a : List Int) :
    toPoly p (normalize a) = toPoly p a := by
  induction a with
  | nil => rfl
  | cons x a ih =>
    unfold normalize
    cases h : normalize a with
    | nil =>
      rw [h] at ih
      by_cases hx : x = 0
      · simp [hx, toPoly, ← ih]
      · simp [hx, toPoly, ← ih]
    | cons b bs =>
      rw [h] at ih
      simp only [toPoly_cons, ← ih]

theorem toPoly_conv (p : Nat) (a : List Int) :
    toPoly p (conv_zz_pX p a) = toPoly p a := by
  unfold conv_zz_pX
  rw [toPoly_normalize, toPoly_map_emod]

theorem toPoly_coeff (p : Nat) (a : List Int) (n : Nat) :
    (toPoly p a).coeff n = ((a.getD n 0 : Int) : ZMod p) := by
  induction a generalizing n with
  | nil => simp [toPoly]
  | cons x a ih =>
    cases n with
    | zero => simp [toPoly]
    | succ m =>
      simp only [toPoly, Polynomial.coeff_add, Polynomial.coeff_C_succ, Polynomial.coeff_X_mul,
        ih m, zero_add]
      simp

theorem toPoly_degree_lt (p : Nat) (a : List Int) :
    (toPoly p a).degree < (a.length : WithBot ℕ) := by
  rw [Polynomial.degree_lt_iff_coeff_zero]
  intro m hm
  rw [toPoly_coeff, List.getD_eq_default _ _ hm]
  simp

open Polynomial in
theorem toPoly_cons_inj (p : Nat) (x y : Int) (a b : List Int)
    (h : toPoly p (x :: a) = toPoly p (y :: b)) :
    (x : ZMod p) = (y : ZMod p) ∧ toPoly p a = toPoly p b := by
  constructor
  · have := congrArg (fun P => Polynomial.coeff P 0) h
    simpa [toPoly] using this
  · ext n
    have := congrArg (fun P => Polynomial.coeff P (n + 1)) h
    simpa only [toPoly, Polynomial.coeff_add, Polynomial.coeff_C_succ, Polynomial.coeff_X_mul,
      zero_add] using this

theorem normalize_map_emod_cons (p : Nat) (x y : Int) (a b : List Int)
    (hxy : x % (p : Int) = y % (p : Int))
    (hab : conv_zz_pX p a = conv_zz_pX p b) :
    conv_zz_pX p (x :: a) = conv_zz_pX p (y :: b) := by
  unfold conv_zz_pX at *
  simp only [List.map_cons]
  unfold normalize
  rw [hab, hxy]

theorem conv_eq_nil_of_toPoly_eq_zero (p : Nat) (a : List Int) (h : toPoly p a = 0) :
    conv_zz_pX p a = [] := by
  induction a with
  | nil => rfl
  | cons x a ih =>
    have h' : toPoly p (x :: a) = toPoly p (0 :: []) := by
      rw [h]; simp [toPoly]
    obtain ⟨h1, h2⟩ := toPoly_cons_inj p x 0 a [] h'
    have ha := ih (by rw [h2]; rfl)
    have hx : x % (p : Int) = 0 := by
      have := (ZMod.intCast_eq_intCast_iff' x 0 p).mp h1
      simpa using this
    unfold conv_zz_pX at *
    simp only [List.map_cons]
    unfold normalize
    rw [ha, hx]
    simp

theorem conv_eq_of_toPoly_eq (p : Nat) (a b : List Int) (h : toPoly p a = toPoly p b) :
    conv_zz_pX p a = conv_zz_pX p b := by
  induction a generalizing b with
  | nil =>
    rw [conv_eq_nil_of_toPoly_eq_zero p b (by rw [← h]; rfl)]
    rfl
  | cons x a ih =>
    cases b with
    | nil =>
      rw [conv_eq_nil_of_toPoly_eq_zero p (x :: a) (by rw [h]; rfl)]
      rfl
    | cons y b =>
      obtain ⟨h1, h2⟩ := toPoly_cons_inj p x y a b h
      exact normalize_map_emod_cons p x y a b
        ((ZMod.intCast_eq_intCast_iff' x y p).mp h1) (ih b h2)

theorem conv_conv (p : Nat) (a : List Int) :
    conv_zz_pX p (conv_zz_pX p a) = conv_zz_pX p a :=
  conv_eq_of_toPoly_eq p _ _ (toPoly_conv p a)

theorem toPoly_add (p : Nat) (a b : zz_pX) :
    toPoly p (zz_pX.add p a b) = toPoly p a + toPoly p b := by
  unfold zz_pX.add
  rw [toPoly_conv, toPoly_polyAdd]

theorem toPoly_mul (p : Nat) (a b : zz_pX) :
    toPoly p (zz_pX.mul p a b) = toPoly p a * toPoly p b := by
  unfold zz_pX.mul
  rw [toPoly_conv, toPoly_polyMul]

/-! ## The remainder modulo a monic factor -/

open Polynomial in
theorem toPoly_append_singleton (p : Nat) (l : List Int) (c : Int) :
    toPoly p (l ++ [c]) = toPoly p l + X ^ l.length * C (c : ZMod p) := by
  induction l with
  | nil => simp [toPoly]
  | cons x a ih =>
    simp only [List.cons_append, toPoly_cons, ih, List.length_cons, pow_succ]
    ring

open Polynomial in
theorem toPoly_dropLast (p : Nat) (g : List Int) (hg : g ≠ []) :
    toPoly p g = toPoly p g.dropLast + X ^ (g.length - 1) * C ((g.getLastD 0 : Int) : ZMod p) := by
  have h1 : g = g.dropLast ++ [g.getLast hg] := (List.dropLast_append_getLast hg).symm
  have h2 : g.getLastD 0 = g.getLast hg := by
    cases g with
    | nil => exact absurd rfl hg
    | cons x r => rfl
  rw [h2]
  conv_lhs => rw [h1]
  rw [toPoly_append_singleton, List.length_dropLast]

theorem toPoly_replicate_zero (p : Nat) (n : Nat) : toPoly p (List.replicate n 0) = 0 := by
  induction n with
  | zero => rfl
  | succ n ih => simp [List.replicate_succ, toPoly, ih]

open Polynomial in
theorem toPoly_zipWith_sub (p : Nat) (c : Int) (us vs : List Int) (h : us.length = vs.length) :
    toPoly p (List.zipWith (fun u v => (u - c * v) % (p : Int)) us vs)
      = toPoly p us - C (c : ZMod p) * toPoly p vs := by
  induction us generalizing vs with
  | nil =>
    cases vs with
    | nil => simp [toPoly]
    | cons v vs => simp at h
  | cons u us ih =>
    cases vs with
    | nil => simp at h
    | cons v vs =>
      simp only [List.length_cons, add_left_inj] at h
      simp only [List.zipWith_cons_cons, toPoly_cons, ih vs h, ZMod.intCast_mod]
      push_cast
      simp only [map_sub, map_mul]
      ring

theorem polyRemStep_length (p : Nat) (f_lo : List Int) (x : Int) (r : List Int)
    (h : r.length = f_lo.length) : (polyRemStep p f_lo x r).length = f_lo.length := by
  unfold polyRemStep
  simp [h]

theorem polyRem_length (p : Nat) (f a : List Int) : (polyRem p f a).length = f.length - 1 := by
  induction a with
  | nil => simp [polyRem]
  | cons x a ih =>
    unfold polyRem
    rw [polyRemStep_length p f.dropLast x _ (by rw [ih, List.length_dropLast])]
    exact List.length_dropLast f

open Polynomial in
theorem toPoly_monic_split (p : Nat) (f : List Int) (hf : f.getLast? = some 1) :
    toPoly p f = X ^ (f.length - 1) + toPoly p f.dropLast := by
  have hne : f ≠ [] := by
    intro h
    rw [h] at hf
    simp at hf
  have hl : f.getLastD 0 = 1 := by
    rw [List.getLastD_eq_getLast?, hf]
    rfl
  rw [toPoly_dropLast p f hne, hl]
  simp
  ring

theorem toPoly_monic (p : Nat) (f : List Int) (hf : f.getLast? = some 1) :
    (toPoly p f).Monic := by
  rw [toPoly_monic_split p f hf]
  apply Polynomial.monic_X_pow_add
  have := toPoly_degree_lt p f.dropLast
  rwa [List.length_dropLast] at this

theorem toPoly_monic_degree (p : Nat) [Fact (1 < p)] (f : List Int)
    (hf : f.getLast? = some 1) :
    (toPoly p f).degree = ((f.length - 1 : Nat) : WithBot ℕ) := by
  rw [toPoly_monic_split p f hf]
  have h := toPoly_degree_lt p f.dropLast
  rw [List.length_dropLast] at h
  rw [Polynomial.degree_add_eq_left_of_degree_lt (by rw [Polynomial.degree_X_pow]; exact h),
    Polynomial.degree_X_pow]

open Polynomial in
theorem toPoly_polyRemStep (p : Nat) (f : List Int) (hf : f.getLast? = some 1) (x : Int)
    (r : List Int) (hr : r.length = f.length - 1) :
    toPoly p (polyRemStep p f.dropLast x r)
      = toPoly p (x :: r) - C (((x :: r).getLastD 0 : Int) : ZMod p) * toPoly p f := by
  unfold polyRemStep
  simp only
  have hlen : (x :: r).dropLast.length = f.dropLast.length := by
    simp [hr]
  rw [toPoly_zipWith_sub p _ _ _ hlen, toPoly_monic_split p f hf]
  have h2 := toPoly_dropLast p (x :: r) (by simp)
  have h3 : (x :: r).length - 1 = f.length - 1 := by simp [hr]
  rw [h3] at h2
  rw [h2]
  ring

theorem toPoly_polyRem_exists (p : Nat) (f : List Int) (hf : f.getLast? = some 1)
    (a : List Int) :
    ∃ q, toPoly p (polyRem p f a) + toPoly p f * q = toPoly p a := by
  induction a with
  | nil => exact ⟨0, by simp [polyRem, toPoly_replicate_zero, toPoly]⟩
  | cons x a ih =>
    obtain ⟨q, hq⟩ := ih
    refine ⟨Polynomial.X * q
      + Polynomial.C (((x :: polyRem p f a).getLastD 0 : Int) : ZMod p), ?_⟩
    show toPoly p (polyRemStep p f.dropLast x (polyRem p f a)) + _ = _
    rw [toPoly_polyRemStep p f hf x _ (polyRem_length p f a), toPoly_cons, toPoly_cons, ← hq]
    ring

theorem toPoly_rem (p : Nat) [Fact (1 < p)] (a f : zz_pX) (hf : f.getLast? = some 1) :
    toPoly p (zz_pX.rem p a f) = toPoly p a %ₘ toPoly p f := by
  unfold zz_pX.rem
  rw [toPoly_conv]
  obtain ⟨q, hq⟩ := toPoly_polyRem_exists p f hf a
  have hdeg : (toPoly p (polyRem p f a)).degree < (toPoly p f).degree := by
    rw [toPoly_monic_degree p f hf]
    have := toPoly_degree_lt p (polyRem p f a)
    rwa [polyRem_length] at this
  exact (Polynomial.div_modByMonic_unique q _ (toPoly_monic p f hf) ⟨hq, hdeg⟩).2.symm

/-! ## The CRT codec -/

theorem toPoly_one (p : Nat) : toPoly p (conv_zz_pX p [1]) = 1 := by
  rw [toPoly_conv]
  simp [toPoly]

theorem toPoly_foldr_mul (p : Nat) (L : List zz_pX) :
    toPoly p (L.foldr (fun f acc => zz_pX.mul p f acc) (conv_zz_pX p [1]))
      = (L.map (toPoly p)).prod := by
  induction L with
  | nil => simp [toPoly_one]
  | cons f L ih => simp [toPoly_mul, ih]

theorem toPoly_cofactor (alMod : PAlgebraMod) (i : Nat) :
    toPoly alMod.PPowR (alMod.cofactor i)
      = ((alMod.factors.eraseIdx i).map (toPoly alMod.PPowR)).prod := by
  unfold PAlgebraMod.cofactor
  exact toPoly_foldr_mul _ _

theorem toPoly_foldr_add (p : Nat) (g : Nat → zz_pX) (L : List Nat) :
    toPoly p (L.foldr (fun i H => zz_pX.add p (g i) H) [])
      = (L.map (fun i => toPoly p (g i))).sum := by
  induction L with
  | nil => simp [toPoly]
  | cons i L ih => simp [toPoly_add, ih]

theorem list_sum_map_range {R : Type} [AddCommMonoid R] (f : Nat → R) (n : Nat) :
    ((List.range n).map f).sum = ∑ i ∈ Finset.range n, f i := by
  induction n with
  | zero => simp
  | succ n ih => simp [List.range_succ, Finset.sum_range_succ, ih]

theorem toPoly_MulMod (p : Nat) [Fact (1 < p)] (a b f : zz_pX) (hf : f.getLast? = some 1) :
    toPoly p (zz_pX.MulMod p a b f) = (toPoly p a * toPoly p b) %ₘ toPoly p f := by
  unfold zz_pX.MulMod
  rw [toPoly_rem p _ f hf, toPoly_mul]

theorem toPoly_CRT_reconstruct (alMod : PAlgebraMod) (n : Nat) (crt : List zz_pX) :
    toPoly alMod.PPowR (CRT_reconstruct alMod n crt)
      = ∑ i ∈ Finset.range n,
          toPoly alMod.PPowR (zz_pX.MulMod alMod.PPowR (crt.getD i [])
            (alMod.crtCoeffs.getD i []) (alMod.factors.getD i []))
          * toPoly alMod.PPowR (alMod.cofactor i) := by
  unfold CRT_reconstruct
  rw [toPoly_foldr_add alMod.PPowR (fun i => zz_pX.mul alMod.PPowR
    (zz_pX.MulMod alMod.PPowR (crt.getD i []) (alMod.crtCoeffs.getD i [])
      (alMod.factors.getD i [])) (alMod.cofactor i)), list_sum_map_range]
  simp only [toPoly_mul]

theorem factor_dvd_cofactor (alMod : PAlgebraMod) (i j : Nat) (hj : j < alMod.factors.length)
    (hij : j ≠ i) :
    toPoly alMod.PPowR (alMod.factors.getD j []) ∣ toPoly alMod.PPowR (alMod.cofactor i) := by
  rw [toPoly_cofactor]
  apply List.dvd_prod
  apply List.mem_map_of_mem
  rw [List.mem_eraseIdx_iff_getElem]
  exact ⟨j, hj, hij, (List.getD_eq_getElem _ _ hj).symm⟩

theorem modByMonic_sub_self_dvd {R : Type} [CommRing R] (A F : Polynomial R) (hF : F.Monic) :
    F ∣ A %ₘ F - A := by
  have h := Polynomial.modByMonic_add_div A hF
  refine ⟨-(A /ₘ F), ?_⟩
  have h2 : A %ₘ F - A = A %ₘ F - (A %ₘ F + F * (A /ₘ F)) := by rw [h]
  rw [h2]
  ring

theorem toPoly_CRT_reconstruct_mod (alMod : PAlgebraMod) (n : Nat) (crt : List zz_pX)
    [Fact (1 < alMod.PPowR)]
    (hfac : alMod.factors.length = n)
    (hmonic : ∀ f ∈ alMod.factors, f.getLast? = some 1)
    (hcrt : ∀ i, i < n → zz_pX.MulMod alMod.PPowR (alMod.crtCoeffs.getD i [])
      (alMod.cofactor i) (alMod.factors.getD i []) = [1])
    (j : Nat) (hj : j < n) :
    toPoly alMod.PPowR (CRT_reconstruct alMod n crt) %ₘ toPoly alMod.PPowR (alMod.factors.getD j [])
      = toPoly alMod.PPowR (crt.getD j []) %ₘ toPoly alMod.PPowR (alMod.factors.getD j []) := by
  have hjf : j < alMod.factors.length := by omega
  have hmem : alMod.factors.getD j [] ∈ alMod.factors := by
    rw [List.getD_eq_getElem _ _ hjf]
    exact List.getElem_mem hjf
  have hF := toPoly_monic alMod.PPowR _ (hmonic _ hmem)
  apply Polynomial.modByMonic_eq_of_dvd_sub hF
  rw [toPoly_CRT_reconstruct, ← Finset.add_sum_erase (Finset.range n) _ (Finset.mem_range.mpr hj),
    add_sub_right_comm]
  apply dvd_add
  · rw [toPoly_MulMod _ _ _ _ (hmonic _ hmem)]
    have h1 := modByMonic_sub_self_dvd (toPoly alMod.PPowR (crt.getD j [])
      * toPoly alMod.PPowR (alMod.crtCoeffs.getD j [])) _ hF
    have h2 := modByMonic_sub_self_dvd (toPoly alMod.PPowR (alMod.crtCoeffs.getD j [])
      * toPoly alMod.PPowR (alMod.cofactor j)) _ hF
    have h3 := congrArg (toPoly alMod.PPowR) (hcrt j hj)
    rw [toPoly_MulMod _ _ _ _ (hmonic _ hmem)] at h3
    rw [h3] at h2
    have h4 : toPoly alMod.PPowR [1] = 1 := by simp [toPoly]
    rw [h4] at h2
    obtain ⟨u, hu⟩ := h1
    obtain ⟨w, hw⟩ := h2
    refine ⟨u * toPoly alMod.PPowR (alMod.cofactor j) - toPoly alMod.PPowR (crt.getD j []) * w, ?_⟩
    have e1 : (toPoly alMod.PPowR (crt.getD j []) * toPoly alMod.PPowR (alMod.crtCoeffs.getD j []))
        %ₘ toPoly alMod.PPowR (alMod.factors.getD j [])
        = toPoly alMod.PPowR (alMod.factors.getD j []) * u
          + toPoly alMod.PPowR (crt.getD j []) * toPoly alMod.PPowR (alMod.crtCoeffs.getD j []) := by
      rw [← hu]; ring
    rw [e1]
    have e2 : toPoly alMod.PPowR (alMod.crtCoeffs.getD j []) * toPoly alMod.PPowR (alMod.cofactor j)
        = 1 - toPoly alMod.PPowR (alMod.factors.getD j []) * w := by
      rw [← hw]; ring
    calc (toPoly alMod.PPowR (alMod.factors.getD j []) * u
          + toPoly alMod.PPowR (crt.getD j []) * toPoly alMod.PPowR (alMod.crtCoeffs.getD j []))
          * toPoly alMod.PPowR (alMod.cofactor j) - toPoly alMod.PPowR (crt.getD j [])
        = toPoly alMod.PPowR (alMod.factors.getD j []) * u * toPoly alMod.PPowR (alMod.cofactor j)
          + toPoly alMod.PPowR (crt.getD j [])
            * (toPoly alMod.PPowR (alMod.crtCoeffs.getD j [])
              * toPoly alMod.PPowR (alMod.cofactor j))
          - toPoly alMod.PPowR (crt.getD j []) := by ring
      _ = toPoly alMod.PPowR (alMod.factors.getD j [])
          * (u * toPoly alMod.PPowR (alMod.cofactor j)
            - toPoly alMod.PPowR (crt.getD j []) * w) := by
        rw [e2]; ring
  · apply Finset.dvd_sum
    intro i hi
    rw [Finset.mem_erase] at hi
    exact Dvd.dvd.mul_left (factor_dvd_cofactor alMod i j hjf (Ne.symm hi.1)) _

theorem CRT_roundtrip (alMod : PAlgebraMod) (n d : Nat) (slots : List zz_pX)
    (hp : 2 ≤ alMod.PPowR)
    (hfac : alMod.factors.length = n)
    (hmonic : ∀ f ∈ alMod.factors, f.length = d + 1 ∧ f.getLast? = some 1)
    (hcrt : ∀ i, i < n → zz_pX.MulMod alMod.PPowR (alMod.crtCoeffs.getD i [])
      (alMod.cofactor i) (alMod.factors.getD i []) = [1])
    (hlen : slots.length = n)
    (hslots : ∀ s ∈ slots, conv_zz_pX alMod.PPowR s = s ∧ s.length ≤ d) :
    CRT_decompose alMod (CRT_reconstruct alMod n slots) = slots := by
  haveI : Fact (1 < alMod.PPowR) := ⟨by omega⟩
  unfold CRT_decompose
  apply List.ext_getElem
  · simp [hfac, hlen]
  · intro j h1 h2
    have hj : j < n := by omega
    have hjf : j < alMod.factors.length := by omega
    have hmem : alMod.factors[j] ∈ alMod.factors := List.getElem_mem hjf
    obtain ⟨hfl, hfm⟩ := hmonic _ hmem
    obtain ⟨hsc, hsl⟩ := hslots _ (List.getElem_mem h2)
    rw [List.getElem_map]
    have key := toPoly_CRT_reconstruct_mod alMod n slots hfac (fun f hf => (hmonic f hf).2)
      hcrt j hj
    rw [List.getD_eq_getElem _ _ hjf, List.getD_eq_getElem _ _ h2] at key
    have hdeg : (toPoly alMod.PPowR slots[j]).degree
        < (toPoly alMod.PPowR alMod.factors[j]).degree := by
      rw [toPoly_monic_degree _ _ hfm, hfl]
      refine lt_of_lt_of_le (toPoly_degree_lt _ _) ?_
      simp only [add_tsub_cancel_right]
      exact_mod_cast hsl
    rw [(Polynomial.modByMonic_eq_self_iff (toPoly_monic _ _ hfm)).mpr hdeg] at key
    rw [← toPoly_rem _ _ _ hfm] at key
    have := conv_eq_of_toPoly_eq _ _ _ key
    rw [hsc] at this
    rw [← this]
    unfold zz_pX.rem
    rw [conv_conv]

/-- C2. In a context with modulus `p ≥ 2`, one monic factor of degree `d` per slot and the
CRT table of the context (`crtCoeffs[i]` times the product of the other factors is `1`
modulo factor `i`), every slot vector of `l` polynomials over `Z/p` of degree `< d`
(coefficient lists with entries in `[0, p)`, no trailing zero, at most `d` entries) is
recovered by decoding its encoding, for the mod-`p` overloads and for the overloads that
carry the ring element as an integer polynomial; lifting the encoded element to the
integers and reducing it mod `p` gives the element back. -/
theorem rawEncode_rawDecode_roundtrip (context : FHEcontext) (slots : List zz_pX)
    (hp : 2 ≤ context.alMod.PPowR)
    (hfac : context.alMod.factors.length = context.ea.size)
    (hmonic : ∀ f ∈ context.alMod.factors,
      f.length = context.ea.degree + 1 ∧ f.getLast? = some 1)
    (hcrt : ∀ i, i < context.ea.size →
      zz_pX.MulMod context.alMod.PPowR (context.alMod.crtCoeffs.getD i [])
        (context.alMod.cofactor i) (context.alMod.factors.getD i []) = [1])
    (hlen : slots.length = context.ea.size)
    (hslots : ∀ s ∈ slots,
      conv_zz_pX context.alMod.PPowR s = s ∧ s.length ≤ context.ea.degree) :
    rawDecode_zz_pX (rawEncode_zz_pX slots context) context = slots
    ∧ rawDecode_ZZX (rawEncode_ZZX slots context) context = slots
    ∧ conv_zz_pX context.alMod.PPowR (conv_ZZX (rawEncode_zz_pX slots context))
        = rawEncode_zz_pX slots context := by
  have hrt := CRT_roundtrip context.alMod context.ea.size context.ea.degree slots hp hfac
    hmonic hcrt hlen hslots
  have hcanon : conv_zz_pX context.alMod.PPowR (conv_ZZX (rawEncode_zz_pX slots context))
      = rawEncode_zz_pX slots context := by
    unfold conv_ZZX rawEncode_zz_pX CRT_reconstruct
    cases h : List.range context.ea.size with
    | nil => rfl
    | cons i L =>
      simp only [List.foldr_cons]
      unfold zz_pX.add
      rw [conv_conv]
  refine ⟨hrt, ?_, hcanon⟩
  unfold rawDecode_ZZX rawEncode_ZZX
  simp only
  rw [hcanon]
  exact hrt

theorem rawEncode_rawDecode_roundtrip_witness :
    rawDecode_zz_pX (rawEncode_zz_pX [[1, 2], [3, 4]]
        { zMStar := { M := 8, P := 5, PhiM := 4 }
          alMod := { PPowR := 5, factorsOverZZ := [[3, 0, 1], [2, 0, 1]], crtCoeffs := [[4], [1]] }
          ea := { size := 2, degree := 2 } })
        { zMStar := { M := 8, P := 5, PhiM := 4 }
          alMod := { PPowR := 5, factorsOverZZ := [[3, 0, 1], [2, 0, 1]], crtCoeffs := [[4], [1]] }
          ea := { size := 2, degree := 2 } } = [[1, 2], [3, 4]] :=
  (rawEncode_rawDecode_roundtrip
    { zMStar := { M := 8, P := 5, PhiM := 4 }
      alMod := { PPowR := 5, factorsOverZZ := [[3, 0, 1], [2, 0, 1]], crtCoeffs := [[4], [1]] }
      ea := { size := 2, degree := 2 } }
    [[1, 2], [3, 4]] (by decide) (by decide) (by decide) (by decide) (by decide) (by decide)).1

/-- C10, the code at a failing input. In the context `p = 5` with the factors `X^2 + 3`
and `X^2 + 2`, on the element `1 + X` the overload of `rawDecode` that outputs integer
polynomials returns the zero polynomial in every slot, whereas the overload that outputs
mod-`p` polynomials returns `1 + X` in every slot; the former returns the same vector for
every element. -/
theorem rawDecode_ZZX_ZZX_ignores_poly :
    rawDecode_ZZX_ZZX [1, 1]
        { zMStar := { M := 8, P := 5, PhiM := 4 }
          alMod := { PPowR := 5, factorsOverZZ := [[3, 0, 1], [2, 0, 1]], crtCoeffs := [[4], [1]] }
          ea := { size := 2, degree := 2 } } = [[], []]
    ∧ (rawDecode_ZZX [1, 1]
        { zMStar := { M := 8, P := 5, PhiM := 4 }
          alMod := { PPowR := 5, factorsOverZZ := [[3, 0, 1], [2, 0, 1]], crtCoeffs := [[4], [1]] }
          ea := { size := 2, degree := 2 } }).map conv_ZZX = [[1, 1], [1, 1]]
    ∧ ∀ (poly poly' : ZZX) (context : FHEcontext),
        rawDecode_ZZX_ZZX poly context = rawDecode_ZZX_ZZX poly' context := by
  refine ⟨by decide, by decide, fun _ _ _ => rfl⟩

/-! ## Extraction reads the remainder modulo `X^d + c` -/

theorem sum_range_mul_last {R : Type} [AddCommMonoid R] (d l : Nat) (hd : 0 < d) (g : Nat → R) :
    ∑ k ∈ Finset.range (l * d), (if k % d = d - 1 then g k else 0)
      = ∑ i ∈ Finset.range l, g ((i + 1) * d - 1) := by
  induction l with
  | zero => simp
  | succ l ih =>
    rw [Nat.succ_mul, Finset.sum_range_add, ih, Finset.sum_range_succ]
    congr 1
    rw [Finset.sum_eq_single (d - 1)]
    · have h1 : (l * d + (d - 1)) % d = d - 1 := by
        rw [Nat.add_comm, Nat.add_mul_mod_self_right, Nat.mod_eq_of_lt (by omega)]
      have h2 : l * d + (d - 1) = (l + 1) * d - 1 := by
        rw [Nat.succ_mul]; omega
      rw [if_pos h1, h2]
    · intro j hj hne
      rw [Finset.mem_range] at hj
      have h1 : (l * d + j) % d = j := by
        rw [Nat.add_comm, Nat.add_mul_mod_self_right, Nat.mod_eq_of_lt hj]
      rw [if_neg (by omega)]
    · intro h
      exact absurd (Finset.mem_range.mpr (by omega)) h

open Polynomial in
theorem modByMonic_X_pow_add_C_eq {R : Type} [CommRing R] [Nontrivial R] (d n : Nat)
    (hd : 0 < d) (c : R) (a : Nat → R) :
    (∑ k ∈ Finset.range n, C (a k) * X ^ k) %ₘ (X ^ d + C c)
      = ∑ k ∈ Finset.range n, C (a k * (-c) ^ (k / d)) * X ^ (k % d) := by
  have hF : (X ^ d + C c : R[X]).Monic := monic_X_pow_add_C c (by omega)
  have hdvd : (X ^ d + C c : R[X]) ∣ (∑ k ∈ Finset.range n, C (a k) * X ^ k)
      - ∑ k ∈ Finset.range n, C (a k * (-c) ^ (k / d)) * X ^ (k % d) := by
    rw [← Finset.sum_sub_distrib]
    apply Finset.dvd_sum
    intro k _
    have hk : (X : R[X]) ^ k = X ^ (k % d) * (X ^ d) ^ (k / d) := by
      rw [← pow_mul, ← pow_add, Nat.mod_add_div]
    have hterm : C (a k) * X ^ k - C (a k * (-c) ^ (k / d)) * X ^ (k % d)
        = C (a k) * X ^ (k % d) * ((X ^ d) ^ (k / d) - (C (-c)) ^ (k / d)) := by
      rw [hk, C_mul, C_pow]
      ring
    rw [hterm]
    apply Dvd.dvd.mul_left
    have h2 := sub_dvd_pow_sub_pow ((X : R[X]) ^ d) (C (-c)) (k / d)
    have h3 : (X : R[X]) ^ d - C (-c) = X ^ d + C c := by
      rw [C_neg]; ring
    rwa [h3] at h2
  have hdeg : (∑ k ∈ Finset.range n, C (a k * (-c) ^ (k / d)) * X ^ (k % d)).degree
      < (X ^ d + C c : R[X]).degree := by
    rw [degree_X_pow_add_C hd, degree_lt_iff_coeff_zero]
    intro m hm
    rw [finset_sum_coeff]
    apply Finset.sum_eq_zero
    intro k _
    rw [coeff_C_mul_X_pow, if_neg]
    have := Nat.mod_lt k hd
    omega
  rw [modByMonic_eq_of_dvd_sub hF hdvd, (modByMonic_eq_self_iff hF).mpr hdeg]

open Polynomial in
theorem modByMonic_X_pow_add_C_coeff {R : Type} [CommRing R] [Nontrivial R] (d l : Nat)
    (hd : 0 < d) (c : R) (a : Nat → R) :
    ((∑ k ∈ Finset.range (l * d), C (a k) * X ^ k) %ₘ (X ^ d + C c)).coeff (d - 1)
      = ∑ i ∈ Finset.range l, a ((i + 1) * d - 1) * (-c) ^ i := by
  rw [modByMonic_X_pow_add_C_eq d (l * d) hd c a, finset_sum_coeff]
  have h1 : ∀ k ∈ Finset.range (l * d),
      (C (a k * (-c) ^ (k / d)) * X ^ (k % d) : R[X]).coeff (d - 1)
        = if k % d = d - 1 then a k * (-c) ^ (k / d) else 0 := by
    intro k _
    rw [coeff_C_mul_X_pow]
    by_cases h : k % d = d - 1
    · rw [if_pos h.symm, if_pos h]
    · rw [if_neg (fun h' => h h'.symm), if_neg h]
  rw [Finset.sum_congr rfl h1, sum_range_mul_last d l hd (fun k => a k * (-c) ^ (k / d))]
  apply Finset.sum_congr rfl
  intro i _
  have h2 : ((i + 1) * d - 1) / d = i := by
    apply Nat.div_eq_of_lt_le
    · rw [Nat.succ_mul]; omega
    · rw [Nat.succ_mul]; omega
  simp only [h2]

open Polynomial in
theorem toPoly_eq_sum (p : Nat) (a : List Int) (n : Nat) (hn : a.length ≤ n) :
    toPoly p a = ∑ k ∈ Finset.range n, C ((a.getD k 0 : Int) : ZMod p) * X ^ k := by
  ext m
  rw [toPoly_coeff, finset_sum_coeff]
  simp only [coeff_C_mul_X_pow]
  by_cases hm : m < n
  · rw [Finset.sum_eq_single m]
    · simp
    · intro k _ hk
      rw [if_neg (fun h => hk h.symm)]
    · intro h
      exact absurd (Finset.mem_range.mpr hm) h
  · rw [List.getD_eq_default _ _ (by omega), Finset.sum_eq_zero]
    · simp
    · intro k hk
      rw [Finset.mem_range] at hk
      rw [if_neg (by omega)]

open Polynomial in
theorem toPoly_restricted_factor (p : Nat) (c : Int) (d : Nat) (hd : 0 < d) :
    toPoly p (c :: (List.replicate (d - 1) 0 ++ [1])) = X ^ d + C (c : ZMod p) := by
  rw [toPoly_cons, toPoly_append_singleton, toPoly_replicate_zero, List.length_replicate]
  have : (X : (ZMod p)[X]) ^ d = X * X ^ (d - 1) := by
    rw [← pow_succ']
    congr 1
    omega
  rw [this]
  simp
  ring

theorem gmm_table_getD_cast (p : Nat) (c : Int) (l i : Nat) (hi : i < l) :
    (((precompute_gmm_table c (p : Int) l).beta_powers.getD i 0 : Int) : ZMod p)
      = (-(c : ZMod p)) ^ i := by
  have hlen : i < (precompute_gmm_table c (p : Int) l).beta_powers.length := by
    simp [precompute_gmm_table, hi]
  rw [List.getD_eq_getElem _ _ hlen]
  simp only [precompute_gmm_table, List.getElem_map, List.getElem_range, PowerMod]
  rw [ZMod.intCast_mod]
  rcases Nat.mod_two_eq_zero_or_one i with h0 | h1
  · rw [if_neg (by omega)]
    push_cast
    rw [(Nat.even_iff.mpr h0).neg_pow]
  · rw [if_pos h1]
    push_cast
    simp

theorem mem_normalize (a : List Int) (x : Int) (h : x ∈ normalize a) : x ∈ a := by
  induction a with
  | nil => simp [normalize] at h
  | cons y a ih =>
    unfold normalize at h
    cases hn : normalize a with
    | nil =>
      rw [hn] at h
      by_cases hy : y = 0
      · simp [hy] at h
      · simp only [hy, if_false, List.mem_singleton] at h
        rw [h]
        exact List.mem_cons_self y a
    | cons b bs =>
      rw [hn] at h ih
      simp only [List.mem_cons] at h
      rcases h with h | h
      · rw [h]; exact List.mem_cons_self y a
      · exact List.mem_cons_of_mem y (ih (List.mem_cons.mpr h))

theorem conv_zz_pX_range (p : Nat) (hp : 0 < p) (a : List Int) (x : Int)
    (h : x ∈ conv_zz_pX p a) : 0 ≤ x ∧ x < (p : Int) := by
  unfold conv_zz_pX at h
  have h2 := mem_normalize _ _ h
  rw [List.mem_map] at h2
  obtain ⟨y, _, rfl⟩ := h2
  have hp' : (0 : Int) < (p : Int) := by exact_mod_cast hp
  exact ⟨Int.emod_nonneg _ (ne_of_gt hp'), Int.emod_lt_of_pos _ hp'⟩

theorem coeff_natCast (f : ZZX) (n : Nat) : coeff f (n : Int) = f.getD n 0 := by
  unfold coeff
  rw [if_neg (by omega)]
  simp

theorem coeff_conv_range (p : Nat) (hp : 0 < p) (a : List Int) (n : Nat) :
    0 ≤ coeff (conv_zz_pX p a) (n : Int) ∧ coeff (conv_zz_pX p a) (n : Int) < (p : Int) := by
  rw [coeff_natCast]
  by_cases h : n < (conv_zz_pX p a).length
  · rw [List.getD_eq_getElem _ _ h]
    exact conv_zz_pX_range p hp a _ (List.getElem_mem h)
  · rw [List.getD_eq_default _ _ (by omega)]
    exact ⟨le_refl 0, by exact_mod_cast hp⟩

theorem restricted_factor_getLast (c : Int) (d : Nat) :
    (c :: (List.replicate (d - 1) 0 ++ [1])).getLast? = some 1 := by
  rw [List.getLast?_cons, List.getLast?_append]
  simp

open Polynomial in
/-- C9. For a modulus `p ≥ 2`, slot degree `d ≥ 1`, slot count `l`, `m = l * d`, a constant
term `c` (the factor `F = X^d + c`) and a polynomial `poly` of degree `< l * d`,
`extract_inner_product(poly, precompute_gmm_table(c, p, l))` succeeds and returns the
coefficient of `X^(d-1)` of `poly mod F` over `Z/p`: the one that the remainder of the
`zz_pX` arithmetic holds at position `d - 1`, which is the residue in `[0, p)` of the
coefficient of `X^(d-1)` of the remainder of the polynomial division by `X^d + c` in
`(Z/p)[X]`. Every position `(i+1)*d - 1` that is read lies in `[0, l*d)`. -/
theorem extract_inner_product_reads_remainder (context : FHEcontext) (c : Int) (poly : ZZX)
    (tbl : GMMPrecompTable)
    (hp : 2 ≤ context.alMod.PPowR) (hd : 1 ≤ context.ea.degree)
    (hphim : context.zMStar.PhiM = context.ea.size * context.ea.degree)
    (htbl : tbl.beta_powers
      = (precompute_gmm_table c (context.alMod.PPowR : Int) context.ea.size).beta_powers)
    (hlen : poly.length ≤ context.ea.size * context.ea.degree) :
    ∃ s, extract_inner_product poly tbl context = some s
      ∧ s = coeff (zz_pX.rem context.alMod.PPowR (conv_zz_pX context.alMod.PPowR poly)
              (c :: (List.replicate (context.ea.degree - 1) 0 ++ [1])))
            ((context.ea.degree : Int) - 1)
      ∧ ((s : Int) : ZMod context.alMod.PPowR)
          = (toPoly context.alMod.PPowR poly
              %ₘ (X ^ context.ea.degree + C ((c : Int) : ZMod context.alMod.PPowR))).coeff
            (context.ea.degree - 1)
      ∧ ∀ i : Nat, i < context.ea.size →
          0 ≤ ((i : Int) + 1) * (context.ea.degree : Int) - 1
          ∧ ((i : Int) + 1) * (context.ea.degree : Int) - 1
              < ((context.ea.size * context.ea.degree : Nat) : Int) := by
  haveI : Fact (1 < context.alMod.PPowR) := ⟨by omega⟩
  have hp0 : (0 : Int) < (context.alMod.PPowR : Int) := by
    have : 0 < context.alMod.PPowR := by omega
    exact_mod_cast this
  have hidx : ∀ i : Nat, ((i : Int) + 1) * (context.ea.degree : Int) - 1
      = (((i + 1) * context.ea.degree - 1 : Nat) : Int) := by
    intro i
    have h1 : 1 ≤ (i + 1) * context.ea.degree := Nat.mul_pos (Nat.succ_pos i) hd
    rw [Nat.cast_sub h1]
    push_cast
    ring
  have hrun := extract_inner_product_eq poly tbl context (le_of_eq hphim.symm)
    (by rw [htbl]; simp [precompute_gmm_table])
  -- the value of the sum in `Z/p`
  have hcast : (((∑ i ∈ Finset.range context.ea.size,
      coeff poly (((i : Int) + 1) * (context.ea.degree : Int) - 1)
        * tbl.beta_powers.getD i 0) % (context.alMod.PPowR : Int) : Int) :
        ZMod context.alMod.PPowR)
      = (toPoly context.alMod.PPowR poly
          %ₘ (X ^ context.ea.degree + C ((c : Int) : ZMod context.alMod.PPowR))).coeff
        (context.ea.degree - 1) := by
    rw [ZMod.intCast_mod, toPoly_eq_sum _ poly _ hlen,
      modByMonic_X_pow_add_C_coeff context.ea.degree context.ea.size hd]
    push_cast
    apply Finset.sum_congr rfl
    intro i hi
    rw [Finset.mem_range] at hi
    rw [hidx i, coeff_natCast, htbl, gmm_table_getD_cast _ c _ i hi]
  -- the remainder computed on coefficient lists
  have hF := restricted_factor_getLast c context.ea.degree
  have hrem : ((coeff (zz_pX.rem context.alMod.PPowR (conv_zz_pX context.alMod.PPowR poly)
        (c :: (List.replicate (context.ea.degree - 1) 0 ++ [1])))
        ((context.ea.degree : Int) - 1) : Int) : ZMod context.alMod.PPowR)
      = (toPoly context.alMod.PPowR poly
          %ₘ (X ^ context.ea.degree + C ((c : Int) : ZMod context.alMod.PPowR))).coeff
        (context.ea.degree - 1) := by
    have h1 : (context.ea.degree : Int) - 1 = ((context.ea.degree - 1 : Nat) : Int) := by
      rw [Nat.cast_sub hd]
      rfl
    rw [h1, coeff_natCast, ← toPoly_coeff, toPoly_rem _ _ _ hF, toPoly_conv,
      toPoly_restricted_factor _ c _ hd]
  refine ⟨_, hrun, ?_, hcast, ?_⟩
  · have hr := coeff_conv_range context.alMod.PPowR (by omega)
      (polyRem context.alMod.PPowR (c :: (List.replicate (context.ea.degree - 1) 0 ++ [1]))
        (conv_zz_pX context.alMod.PPowR poly)) (context.ea.degree - 1)
    have h1 : (context.ea.degree : Int) - 1 = ((context.ea.degree - 1 : Nat) : Int) := by
      rw [Nat.cast_sub hd]
      rfl
    have heq := (ZMod.intCast_eq_intCast_iff' _ _ _).mp (hcast.trans hrem.symm)
    rw [Int.emod_emod_of_dvd _ (dvd_refl _)] at heq
    rw [heq]
    rw [h1]
    exact Int.emod_eq_of_lt hr.1 hr.2
  · intro i hi
    have h1 : 1 ≤ (i + 1) * context.ea.degree := Nat.mul_pos (Nat.succ_pos i) hd
    have h2 : (i + 1) * context.ea.degree ≤ context.ea.size * context.ea.degree :=
      Nat.mul_le_mul_right _ hi
    rw [hidx i]
    constructor
    · exact Int.natCast_nonneg _
    · exact_mod_cast (by omega : (i + 1) * context.ea.degree - 1
        < context.ea.size * context.ea.degree)

theorem extract_inner_product_reads_remainder_witness :
    ∃ s, extract_inner_product [1, 1, 2, 3] { beta_powers := [1, 2], inv_p := 5 }
        { zMStar := { M := 8, P := 5, PhiM := 4 }
          alMod := { PPowR := 5, factorsOverZZ := [[3, 0, 1], [2, 0, 1]], crtCoeffs := [[4], [1]] }
          ea := { size := 2, degree := 2 } } = some s
      ∧ s = coeff (zz_pX.rem 5 (conv_zz_pX 5 [1, 1, 2, 3]) [3, 0, 1]) 1 := by
  obtain ⟨s, h1, h2, _⟩ :=
    extract_inner_product_reads_remainder
      { zMStar := { M := 8, P := 5, PhiM := 4 }
        alMod := { PPowR := 5, factorsOverZZ := [[3, 0, 1], [2, 0, 1]], crtCoeffs := [[4], [1]] }
        ea := { size := 2, degree := 2 } }
      3 [1, 1, 2, 3] { beta_powers := [1, 2], inv_p := 5 }
      (by decide) (by decide) (by decide) (by decide) (by decide)
  exact ⟨s, h1, h2⟩

end SMP
